import Mathlib

/-!
Verification of the checkpoint-revert coordinator of `src/db/util.py`
(`DatabaseUtil.revert_to_last_backup` and `DatabaseUtil.get_addresses_from_struct`).

The Python code is shallowly embedded: the relational tables are lists of row
structures, the cache store is a list of key/value pairs, SQL statements become
pure list transformations, and the whole coordinator is a pure function from a
state to a result, a final state and a trace of events.  Failures raised with
`RuntimeError` become an explicit error type.
-/

/-! ## Errors raised by `revert_to_last_backup` -/
/-- Failure kinds of the revert coordinator, one per `RuntimeError` raised in
`revert_to_last_backup` (plus the missing-transaction lookup failure).  The
spec names these `UnsupportedCatalog`, `NoCheckpointFound`,
`IncompleteCheckpoint`, `MissingTransactionRecord`, `InvalidRejectedPayload`
and `InvalidTransactionShape` respectively. -/
inductive RevertErr where
  | unsupportedConfiguration : RevertErr
  | noBackupFound : RevertErr
  | backupKeyNotFound (key : String) : RevertErr
  | missingTransaction (txid : String) : RevertErr
  | wrongTransactionData : RevertErr
  | wrongTransactionType : RevertErr
deriving DecidableEq

/-! ## Transactions, transitions and confirmed-transaction variants -/
/-- A transition: the unit of program-function invocation, carrying the
`(program_id, function_name)` pair read at `ts.program_id` /
`ts.function_name` in the decrement loop. -/
structure Transition where
  program_id : String
  function_name : String
deriving DecidableEq

/-- The rejection payload carried by a rejected confirmed transaction
(`ct.rejected` in the source): either a rejected deployment or a rejected
execution with its transitions (`rejected.execution.transitions`). -/
inductive Rejected where
  | deployment : Rejected
  | execution (transitions : List Transition) : Rejected
deriving DecidableEq

/-- The transaction variants distinguished by the `isinstance` chain of lines
134-159: `DeployTransaction` (with its fee transition and deployed program
id), `ExecuteTransaction` (with its execution transitions and the optional
`additional_fee` transition), and `FeeTransaction`. -/
inductive Transaction where
  | deploy (id : String) (fee_transition : Transition) (program_id : String) : Transaction
  | execute (id : String) (transitions : List Transition) (additional_fee : Option Transition) : Transaction
  | fee (id : String) (fee_transition : Transition) : Transaction
deriving DecidableEq

/-- Transaction id, `t.id` in the source. -/
def Transaction.txid : Transaction → String
  | Transaction.deploy i _ _ => i
  | Transaction.execute i _ _ => i
  | Transaction.fee i _ => i

/-- Confirmed-transaction variants: `AcceptedDeploy`, `AcceptedExecute`,
`RejectedDeploy`, `RejectedExecute`, each wrapping `ct.transaction`; the
rejected variants also carry `ct.rejected`. -/
inductive ConfirmedTransaction where
  | acceptedDeploy (tx : Transaction) : ConfirmedTransaction
  | acceptedExecute (tx : Transaction) : ConfirmedTransaction
  | rejectedDeploy (tx : Transaction) (rejected : Rejected) : ConfirmedTransaction
  | rejectedExecute (tx : Transaction) (rejected : Rejected) : ConfirmedTransaction
deriving DecidableEq

/-- The wrapped transaction, `t = ct.transaction` at line 104. -/
def ConfirmedTransaction.transaction : ConfirmedTransaction → Transaction
  | ConfirmedTransaction.acceptedDeploy tx => tx
  | ConfirmedTransaction.acceptedExecute tx => tx
  | ConfirmedTransaction.rejectedDeploy tx _ => tx
  | ConfirmedTransaction.rejectedExecute tx _ => tx

/-- The `isinstance(ct, (RejectedDeploy, RejectedExecute))` test of line 106. -/
def ConfirmedTransaction.is_rejected : ConfirmedTransaction → Bool
  | ConfirmedTransaction.rejectedDeploy _ _ => true
  | ConfirmedTransaction.rejectedExecute _ _ => true
  | _ => false

/-- The set of transitions whose call counters a confirmed transaction
reverses, computed by the `isinstance` chain of lines 134-159 of
`revert_to_last_backup` (the `transitions` local variable), including the two
`RuntimeError` branches for a `FeeTransaction` in an unexpected wrapper. -/
def transition_set (ct : ConfirmedTransaction) : Except RevertErr (List Transition) :=
  match ct.transaction with
  | Transaction.execute _ ts additional_fee =>
      match additional_fee with
      | some ft => Except.ok (ts ++ [ft])
      | none => Except.ok ts
  | Transaction.deploy _ ft _ => Except.ok [ft]
  | Transaction.fee _ ft =>
      match ct with
      | ConfirmedTransaction.rejectedDeploy _ _ => Except.ok [ft]
      | ConfirmedTransaction.rejectedExecute _ rej =>
          match rej with
          | Rejected.execution ts => Except.ok (ts ++ [ft])
          | Rejected.deployment => Except.error RevertErr.wrongTransactionData
      | _ => Except.error RevertErr.wrongTransactionType

/-! ## Plaintext values and `get_addresses_from_struct` -/
/-- Literal types; only `Address` is distinguished by the code
(`Literal.Type.Address`), the rest collapse into representative tags. -/
inductive LiteralType where
  | Address : LiteralType
  | Boolean : LiteralType
  | Field : LiteralType
  | U64 : LiteralType
deriving DecidableEq

/-- A literal with its type tag and the string rendering of its primitive
(`str(p.literal.primitive)`). -/
structure Literal where
  type : LiteralType
  primitive : String
deriving DecidableEq

/-- Plaintext values: `LiteralPlaintext`, `StructPlaintext` (with its named
`members` list) and the remaining non-literal non-struct kinds (arrays),
which `get_addresses_from_struct` ignores. -/
inductive Plaintext where
  | literal (l : Literal) : Plaintext
  | struct (members : List (String × Plaintext)) : Plaintext
  | array (elements : List Plaintext) : Plaintext

mutual

/-- Contribution of one member `p` of a struct to the address set: a literal
of `Address` type contributes its rendered primitive, a nested struct
contributes its recursively collected addresses, anything else contributes
nothing (the `if`/`elif` of lines 19-22). -/
def plaintext_addresses : Plaintext → Finset String
  | Plaintext.literal l =>
      if l.type = LiteralType.Address then {l.primitive} else ∅
  | Plaintext.struct ms => struct_addresses ms
  | Plaintext.array _ => ∅

/-- The loop of `get_addresses_from_struct` over `plaintext.members`,
accumulating a set of address strings. -/
def struct_addresses : List (String × Plaintext) → Finset String
  | [] => ∅
  | (_, p) :: rest => plaintext_addresses p ∪ struct_addresses rest

end

/-- `DatabaseUtil.get_addresses_from_struct` (lines 15-23), as a function of
the struct plaintext's member list. -/
def get_addresses_from_struct (members : List (String × Plaintext)) : Finset String :=
  struct_addresses members

/-- Specification-side predicate: `s` is the rendering of an `Address`
literal reachable from the member list through zero or more nested struct
members. -/
inductive MemberAddr : List (String × Plaintext) → String → Prop where
  | here (members : List (String × Plaintext)) (n s : String)
      (h : (n, Plaintext.literal ⟨LiteralType.Address, s⟩) ∈ members) :
      MemberAddr members s
  | nested (members : List (String × Plaintext)) (n : String)
      (ms : List (String × Plaintext)) (s : String)
      (h : (n, Plaintext.struct ms) ∈ members) (hrec : MemberAddr ms s) :
      MemberAddr members s

/-! ## Relational store rows -/
/-- A row of the `transaction` table, with the columns touched by the revert:
`transaction_id`, `original_transaction_id`, `confimed_transaction_id` (the
column name keeps the source's spelling) and `type`. -/
structure TxRow where
  transaction_id : String
  original_transaction_id : Option String
  confimed_transaction_id : Option Nat
  type : String
deriving DecidableEq

/-- A row of the `program` table: its serial `id` (referenced by
`program_function.program_id`) and the textual `program_id`. -/
structure ProgramRow where
  id : Nat
  program_id : String
deriving DecidableEq

/-- A row of the `mapping` table, keyed by its owning `program_id`. -/
structure MappingRow where
  mapping_id : String
  program_id : String
deriving DecidableEq

/-- A row of the `program_function` table: the owning program's serial id,
the function name and the `called` counter. -/
structure PfRow where
  program_id : Nat
  name : String
  called : Int
deriving DecidableEq

/-- A row of the append-only `mapping_history` table: serial insertion `id`,
`mapping_id`, `key_id`, `key`, nullable `value`, and `height`. -/
structure HistEntry where
  id : Nat
  mapping_id : String
  key_id : String
  key : String
  value : Option String
  height : Nat
deriving DecidableEq

/-- A row of the derived `mapping_value` table. -/
structure ValueRow where
  mapping_id : String
  key_id : String
  value_id : String
  key : String
  value : String
deriving DecidableEq

/-- A block together with the data the revert reads from it: its height, its
confirmed transactions, and the `(address, reward)` pairs of its coinbase
prover solutions (the join of lines 168-174). -/
structure Block where
  height : Nat
  transactions : List ConfirmedTransaction
  solutions : List (String × Int)
deriving DecidableEq

/-- The relational store: one list of rows per table touched by
`revert_to_last_backup`. -/
structure RelState where
  transaction : List TxRow
  program : List ProgramRow
  mapping : List MappingRow
  program_function : List PfRow
  leaderboard : List (String × Int)
  mapping_history : List HistEntry
  mapping_value : List ValueRow
  blocks : List Block
  committee_history : List Nat
deriving DecidableEq

/-! ## Per-transaction confirmation revert (lines 105-132) -/
/-- Lines 106-132: for a rejected confirmed transaction, `SELECT
original_transaction_id` by transaction id (first matching row), raising
`missing transaction` when no row exists; when an original id is recorded,
one `UPDATE` restores the identity columns; when it is `NULL` the branch
falls through without any statement.  For non-rejected variants one `UPDATE`
clears `confimed_transaction_id`.  Returns the new table and the number of
write statements executed. -/
def revert_confirmation (ct : ConfirmedTransaction) (table : List TxRow) :
    (Except RevertErr (List TxRow)) × Nat :=
  let t := ct.transaction
  if ct.is_rejected then
    match table.find? (fun row => row.transaction_id == t.txid) with
    | none => (Except.error (RevertErr.missingTransaction t.txid), 0)
    | some row =>
      match row.original_transaction_id with
      | some orig =>
          let ty := match ct with
            | ConfirmedTransaction.rejectedDeploy _ _ => "Deploy"
            | _ => "Execute"
          (Except.ok (table.map (fun r =>
             if r.transaction_id == t.txid then
               { r with transaction_id := orig, original_transaction_id := none,
                        confimed_transaction_id := none, type := ty }
             else r)), 1)
      | none => (Except.ok table, 0)
  else
    (Except.ok (table.map (fun r =>
       if r.transaction_id == t.txid then { r with confimed_transaction_id := none } else r)), 1)

/-- Lines 140-148: for a `DeployTransaction`, delete the `program` row of the
deployed program id and every `mapping` row owned by it (two statements);
other variants delete nothing. -/
def deploy_deletes (ct : ConfirmedTransaction) (st : RelState) : RelState × Nat :=
  match ct.transaction with
  | Transaction.deploy _ _ pid =>
      ({ st with program := st.program.filter (fun p => !(p.program_id == pid)),
                 mapping := st.mapping.filter (fun m => !(m.program_id == pid)) }, 2)
  | _ => (st, 0)

/-- Lines 160-166: one `UPDATE ... FROM program p` per transition, decrementing
`called` on every `program_function` row joined through an existing `program`
row whose textual id matches the transition's program id. -/
def decrement_called (ts : Transition) (st : RelState) : RelState :=
  { st with program_function := st.program_function.map (fun pf =>
      if (st.program.any (fun p => p.program_id == ts.program_id && p.id == pf.program_id))
          && pf.name == ts.function_name
      then { pf with called := pf.called - 1 } else pf) }

/-- One iteration of the `for ct in block.transactions` loop (lines 103-166):
confirmation revert, transition-set determination with the deploy deletes,
then one counter decrement per transition. -/
def process_ct (ct : ConfirmedTransaction) (st : RelState) :
    (Except RevertErr RelState) × Nat :=
  match revert_confirmation ct st.transaction with
  | (Except.error e, w) => (Except.error e, w)
  | (Except.ok table, w1) =>
    let st1 := { st with transaction := table }
    match transition_set ct with
    | Except.error e => (Except.error e, w1)
    | Except.ok ts =>
      let st2w := deploy_deletes ct st1
      let st3 := ts.foldl (fun s t => decrement_called t s) st2w.1
      (Except.ok st3, w1 + st2w.2 + ts.length)

/-- The transaction loop of a block, in list order. -/
def process_cts : List ConfirmedTransaction → RelState → (Except RevertErr RelState) × Nat
  | [], st => (Except.ok st, 0)
  | ct :: rest, st =>
    match process_ct ct st with
    | (Except.error e, w) => (Except.error e, w)
    | (Except.ok st1, w) =>
      match process_cts rest st1 with
      | (r, w2) => (r, w + w2)

/-- Lines 167-181: subtract each coinbase-solution reward of the block from
its address's `total_reward` (one `UPDATE` per solution row). -/
def revert_leaderboard (b : Block) (st : RelState) : RelState × Nat :=
  (b.solutions.foldl (fun s ar =>
     { s with leaderboard := s.leaderboard.map (fun e =>
         if e.1 == ar.1 then (e.1, e.2 - ar.2) else e) }) st,
   b.solutions.length)

/-- One iteration of the `for block in blocks_to_revert` loop. -/
def process_block (b : Block) (st : RelState) : (Except RevertErr RelState) × Nat :=
  match process_cts b.transactions st with
  | (Except.error e, w) => (Except.error e, w)
  | (Except.ok st1, w) =>
    let st2w := revert_leaderboard b st1
    (Except.ok st2w.1, w + st2w.2)

/-- The block loop of lines 102-181. -/
def process_blocks : List Block → RelState → (Except RevertErr RelState) × Nat
  | [], st => (Except.ok st, 0)
  | b :: rest, st =>
    match process_block b st with
    | (Except.error e, w) => (Except.error e, w)
    | (Except.ok st1, w) =>
      match process_blocks rest st1 with
      | (r, w2) => (r, w + w2)

/-! ## Mapping state rebuild (lines 74-99) -/
/-- Modelled from the spec: `computeValueId(keyId, value) -> valueId`, the
pure domain hashing function `get_value_id` imported from
`aleo_explorer_rust`, whose implementation is not part of this repository;
represented as an injective pairing of its two arguments. -/
def get_value_id (key_id : String) (value : String) : String :=
  key_id ++ "|" ++ value

/-- The `WHERE height <= %s` filter of the snapshot query. -/
def eligible_history (hist : List HistEntry) (H : Nat) : List HistEntry :=
  hist.filter (fun e => decide (e.height ≤ H))

/-- The row a `DISTINCT ON (mapping_id, key_id) ... ORDER BY ... id DESC`
query selects for one `(mapping_id, key_id)` group: the entry with the
greatest insertion id among the given entries matching the group. -/
def best_step (m k : String) (acc : Option HistEntry) (e : HistEntry) : Option HistEntry :=
  if e.mapping_id == m && e.key_id == k then
    match acc with
    | none => some e
    | some a => if a.id < e.id then some e else some a
  else acc

/-- The `DISTINCT ON` group representative as a fold of `best_step` over the
candidate entries. -/
def best_entry (entries : List HistEntry) (m k : String) : Option HistEntry :=
  entries.foldl (best_step m k) none

/-- The `(mapping_id, key_id)` groups present in a list of history entries. -/
def history_pairs (entries : List HistEntry) : List (String × String) :=
  (entries.map (fun e => (e.mapping_id, e.key_id))).dedup

/-- The result set of the snapshot query of lines 74-79: one best entry per
`(mapping_id, key_id)` group with any entry of height at most `H`. -/
def mapping_snapshot (hist : List HistEntry) (H : Nat) : List HistEntry :=
  (history_pairs (eligible_history hist H)).filterMap
    (fun mk => best_entry (eligible_history hist H) mk.1 mk.2)

/-- Lines 74-99: truncate `mapping_value`, insert one row per snapshot entry
whose value is not `NULL` (recomputing `value_id`), then delete every
`mapping_history` row with height above `H`. -/
def rebuild_mapping_value (st : RelState) (H : Nat) : RelState × Nat :=
  let snap := mapping_snapshot st.mapping_history H
  let rows := snap.filterMap (fun e => e.value.map (fun v =>
      ({ mapping_id := e.mapping_id, key_id := e.key_id,
         value_id := get_value_id e.key_id v, key := e.key, value := v } : ValueRow)))
  ({ st with mapping_value := rows,
             mapping_history := st.mapping_history.filter (fun e => decide (e.height ≤ H)) },
   1 + rows.length + 1)

/-! ## Cache store (Redis) -/
/-- The cache store: a list of key/value pairs plus the set of keys carrying
an expiry (cleared by `persist`). -/
structure Redis where
  data : List (String × String)
  volatile : List String
deriving DecidableEq

/-- `redis.exists key`. -/
def Redis.hasKey (r : Redis) (k : String) : Bool :=
  r.data.any (fun kv => kv.1 == k)

/-- Value stored under a key, if any. -/
def Redis.lookup (r : Redis) (k : String) : Option String :=
  (r.data.find? (fun kv => kv.1 == k)).map (fun kv => kv.2)

/-- Overwrite or create a key. -/
def Redis.setKey (r : Redis) (k v : String) : Redis :=
  { r with data := (r.data.filter (fun kv => !(kv.1 == k))) ++ [(k, v)] }

/-- `redis.copy src dst replace=True`: copies the source value onto the
destination key; a missing source is a no-op. -/
def Redis.copy (r : Redis) (src dst : String) : Redis :=
  match r.lookup src with
  | some v => r.setKey dst v
  | none => r

/-- `redis.persist key`: clear the key's expiry. -/
def Redis.persist (r : Redis) (k : String) : Redis :=
  { r with volatile := r.volatile.filter (fun x => !(x == k)) }

/-- `redis.delete key`. -/
def Redis.del (r : Redis) (k : String) : Redis :=
  { r with data := r.data.filter (fun kv => !(kv.1 == k)),
           volatile := r.volatile.filter (fun x => !(x == k)) }

/-- Whether `pre` is a prefix of `s`, on the underlying character lists; used
to model the glob patterns `"x:*"` passed to `redis.scan`. -/
def str_starts (pre s : String) : Bool :=
  pre.toList.isPrefixOf s.toList

/-- The key list returned by `redis.scan` for a pattern `pre ++ "*"`; the
model returns every matching key in store order (with completion cursor 0),
matching the client behaviour on the small key sets the code assumes. -/
def Redis.scan_keys (r : Redis) (pre : String) : List String :=
  (r.data.map (fun kv => kv.1)).filter (fun k => str_starts pre k)

/-! ## Checkpoint locator (lines 53-72) -/
/-- The six state families of lines 53-60 (`redis_keys` in the source). -/
def redis_keys : List String :=
  ["credits.aleo:bonded", "credits.aleo:committee", "address_stake_reward",
   "address_transfer_in", "address_transfer_out", "address_fee"]

/-- Splitting a character list on `:` separators, the model of
`x.split(":")`; always returns at least one (possibly empty) segment. -/
def split_colon : List Char → List (List Char)
  | [] => [[]]
  | c :: rest =>
    let r := split_colon rest
    if c = ':' then [] :: r
    else
      match r with
      | [] => [[c]]
      | seg :: segs => (c :: seg) :: segs

/-- Decimal value of a digit string, the model of `int(...)` on the
digit-only height suffixes the system generates. -/
def nat_of_digits (l : List Char) : Nat :=
  l.foldl (fun acc c => acc * 10 + (c.toNat - 48)) 0

/-- `int(x.split(":")[-1])`: the height suffix of a snapshot key. -/
def key_height (s : String) : Nat :=
  nat_of_digits ((split_colon s.toList).getLastD [])

/-- `sorted(keys, key=lambda x: int(x.split(":")[-1]))`: a stable sort of the
key list by ascending height suffix. -/
def sort_backup_keys (keys : List String) : List String :=
  List.insertionSort (fun a b => key_height a ≤ key_height b) keys

/-- The height the locator selects: the height suffix of the last key of the
sorted list (`keys[-1]` at line 67). -/
def selected_backup_height (keys : List String) : Nat :=
  key_height ((sort_backup_keys keys).getLastD "")

/-- Lines 61-72: given the scan result (`cursor`, `keys`) for the primary
family's snapshot pattern, reject a non-zero cursor, reject an empty key
list, pick the key with the greatest height suffix, then require every
family's snapshot key at that height to exist. -/
def locate_checkpoint (cursor : Nat) (keys : List String) (r : Redis) :
    Except RevertErr Nat :=
  if cursor ≠ 0 then Except.error RevertErr.unsupportedConfiguration
  else if keys.isEmpty then Except.error RevertErr.noBackupFound
  else
    let last_backup_height := selected_backup_height keys
    match redis_keys.find?
        (fun k => !(r.hasKey (k ++ ":history:" ++ toString last_backup_height))) with
    | some k =>
        Except.error (RevertErr.backupKeyNotFound
          (k ++ ":history:" ++ toString last_backup_height))
    | none => Except.ok last_backup_height

/-! ## Cache restore (lines 191-198) -/
/-- Observable operations of one `revert_to_last_backup` run, in order:
blocking/unblocking of SIGINT, relational write statements, the per-family
cache restore, rollback-backup deletions, the transaction commit, and the
error report callback. -/
inductive Event where
  | sigBlock : Event
  | sigUnblock : Event
  | relWrite : Event
  | cacheRestore (family : String) : Event
  | cacheDeleteBackup (key : String) : Event
  | commit : Event
  | report : Event
deriving DecidableEq

/-- One iteration of the restore loop: copy the family's snapshot at the
checkpoint height onto the live key, clear its expiry, then delete every key
found by a scan for the family's rollback-backup pattern. -/
def cache_restore_family (r : Redis) (family : String) (h : Nat) :
    Redis × List Event :=
  let backup_key := family ++ ":history:" ++ toString h
  let r1 := (r.copy backup_key family).persist family
  let backs := r1.scan_keys (family ++ ":rollback_backup:")
  (backs.foldl (fun rr k => rr.del k) r1,
   Event.cacheRestore family :: backs.map (fun k => Event.cacheDeleteBackup k))

/-- The `for redis_key in redis_keys` loop of lines 191-198. -/
def cache_restore (r : Redis) (h : Nat) : Redis × List Event :=
  redis_keys.foldl (fun acc family =>
    let step := cache_restore_family acc.1 family h
    (step.1, acc.2 ++ step.2)) (r, [])

/-! ## The full coordinator -/
/-- The two stores plus the SIGINT mask manipulated by lines 48 and 202/204. -/
structure FullState where
  rel : RelState
  redis : Redis
  sigint_blocked : Bool
deriving DecidableEq

/-- `u32.max`, the start bound of the block-range read at line 101. -/
def u32_max : Nat := 4294967295

/-- A sort of blocks by descending height. -/
def sort_blocks_desc (blocks : List Block) : List Block :=
  List.insertionSort (fun a b => b.height ≤ a.height) blocks

/-- Modelled from the spec: `DatabaseBlock.get_full_block_range` lives in
`src/db/block.py`, which is not among the provided sources.  The spec
describes it as the ledger range reader returning the blocks between the two
height bounds with their transactions fully populated; the revert processes
exactly the blocks above the checkpoint height, newest first. -/
def get_full_block_range (start stop : Nat) (st : RelState) : List Block :=
  sort_blocks_desc
    (st.blocks.filter (fun b => decide (stop < b.height) && decide (b.height ≤ start)))

/-- The body of the `try` block (lines 52-198): locate the checkpoint,
rebuild `mapping_value`, revert every block above the checkpoint, delete the
`block` and `committee_history` rows above it, then run the cache restore.
Returns the outcome, the number of relational write statements executed, and
the cache events emitted. -/
def revert_body (st : FullState) : (Except RevertErr FullState) × Nat × List Event :=
  match locate_checkpoint 0 (st.redis.scan_keys "credits.aleo:bonded:history:") st.redis with
  | Except.error e => (Except.error e, 0, [])
  | Except.ok h =>
    let relw := rebuild_mapping_value st.rel h
    match process_blocks (get_full_block_range u32_max h relw.1) relw.1 with
    | (Except.error e, w2) => (Except.error e, relw.2 + w2, [])
    | (Except.ok rel2, w2) =>
      let rel3 := { rel2 with
        blocks := rel2.blocks.filter (fun b => decide (b.height ≤ h)),
        committee_history := rel2.committee_history.filter (fun c => decide (c ≤ h)) }
      let redisev := cache_restore st.redis h
      (Except.ok { rel := rel3, redis := redisev.1, sigint_blocked := st.sigint_blocked },
       relw.2 + w2 + 2, redisev.2)

/-- `DatabaseUtil.revert_to_last_backup` (lines 47-204).  SIGINT is blocked
before any work; on success the relational transaction commits after the
cache restore loop and SIGINT is unblocked last; on failure the error is
reported, SIGINT is unblocked before the raise propagates, and the final
state models the engine-level rollback of the relational transaction (the
cache is untouched on every failure path, since the cache writes are the last
step of the body and cannot fail in this model). -/
def revert_to_last_backup (st : FullState) :
    (Except RevertErr Unit) × FullState × List Event :=
  match revert_body { st with sigint_blocked := true } with
  | (Except.ok st2, w, cev) =>
      (Except.ok (), { st2 with sigint_blocked := false },
       Event.sigBlock :: (List.replicate w Event.relWrite ++ cev
         ++ [Event.commit, Event.sigUnblock]))
  | (Except.error e, w, cev) =>
      (Except.error e, { st with sigint_blocked := false },
       Event.sigBlock :: (List.replicate w Event.relWrite ++ cev
         ++ [Event.report, Event.sigUnblock]))

/-- A minimal state on which the revert succeeds: all six families have a
snapshot at height 0 and the relational store is empty. -/
def ex_redis : Redis :=
  ⟨[("credits.aleo:bonded:history:0", "b"), ("credits.aleo:committee:history:0", "c"),
    ("address_stake_reward:history:0", "s"), ("address_transfer_in:history:0", "i"),
    ("address_transfer_out:history:0", "o"), ("address_fee:history:0", "f")], []⟩

/-- Empty relational store. -/
def ex_rel : RelState := ⟨[], [], [], [], [], [], [], [], []⟩

/-- A concrete state on which the revert succeeds. -/
def ex_state : FullState := ⟨ex_rel, ex_redis, false⟩

/-- A rejected confirmed transaction whose stored row has no recorded
original transaction id but still carries a confirmation link. -/
def c2_ct : ConfirmedTransaction :=
  ConfirmedTransaction.rejectedDeploy
    (Transaction.fee "t1" ⟨"credits.aleo", "fee_public"⟩) Rejected.deployment

/-- A transaction table with one row for `t1`: no original id, confirmation
link `7`. -/
def c2_table : List TxRow := [⟨"t1", none, some 7, "Fee"⟩]

instance : IsTotal String (fun a b => key_height a ≤ key_height b) :=
  ⟨fun a b => Nat.le_total (key_height a) (key_height b)⟩

instance : IsTrans String (fun a b => key_height a ≤ key_height b) :=
  ⟨fun _ _ _ hab hbc => Nat.le_trans hab hbc⟩

/-- Events emitted by the cache-restore loop (as opposed to the guard,
transaction and reporting events emitted by the coordinator itself). -/
def Event.is_cache_event : Event → Bool
  | Event.cacheRestore _ => true
  | Event.cacheDeleteBackup _ => true
  | _ => false

/-- Lookup in the `mapping_value` table by `(mapping_id, key_id)`. -/
def mv_find (rows : List ValueRow) (m k : String) : Option ValueRow :=
  rows.find? (fun r => r.mapping_id == m && r.key_id == k)

/-- Specification-side predicate: `e` is the history entry with the greatest
insertion id among the entries for its `(mapping_id, key_id)` pair with
height at most `H`. -/
def IsLatestEntry (hist : List HistEntry) (H : Nat) (e : HistEntry) : Prop :=
  e ∈ hist ∧ e.height ≤ H ∧
  ∀ x ∈ hist, x.mapping_id = e.mapping_id → x.key_id = e.key_id →
    x.height ≤ H → x.id ≤ e.id

/-- The reversal transition list of a confirmed transaction (empty when the
computation fails; in a successful walk all computations succeed). -/
def ct_transitions (ct : ConfirmedTransaction) : List Transition :=
  match transition_set ct with
  | Except.ok ts => ts
  | Except.error _ => []

/-- Whether the confirmed transaction is a deployment of program `pid`. -/
def deploys_program (ct : ConfirmedTransaction) (pid : String) : Prop :=
  match ct.transaction with
  | Transaction.deploy _ _ p => p = pid
  | _ => False

/-- All reversal transitions of a block. -/
def block_transitions (b : Block) : List Transition :=
  (b.transactions.map ct_transitions).flatten

/-- The number of reversal transitions of the blocks that reference the given
program function. -/
def matching_count (blocks : List Block) (pid n : String) : Nat :=
  ((blocks.map block_transitions).flatten).countP
    (fun t => t.program_id == pid && t.function_name == n)

/-- A Deploy of `p.aleo` followed, in the same reverted block, by an Execute
calling `p.aleo/f`. -/
def c5_deploy_ct : ConfirmedTransaction :=
  ConfirmedTransaction.acceptedDeploy
    (Transaction.deploy "t1" ⟨"credits.aleo", "fee_public"⟩ "p.aleo")

/-- The Execute of `p.aleo/f` in the same block. -/
def c5_execute_ct : ConfirmedTransaction :=
  ConfirmedTransaction.acceptedExecute (Transaction.execute "t2" [⟨"p.aleo", "f"⟩] none)

/-- The reverted block holding the deploy and then the execute. -/
def c5_block : Block := ⟨95, [c5_deploy_ct, c5_execute_ct], []⟩

/-- Initial state: program row `(1, p.aleo)`, its function `f` called 5
times. -/
def c5_state : RelState :=
  ⟨[], [⟨1, "p.aleo"⟩], [], [⟨1, "f", 5⟩], [], [], [], [], []⟩

/-- A reverted Execute of `q.aleo/g` with no deployments in the range. -/
def c5w_ct : ConfirmedTransaction :=
  ConfirmedTransaction.acceptedExecute (Transaction.execute "t9" [⟨"q.aleo", "g"⟩] none)

/-- The reverted block for the conservation witness. -/
def c5w_block : Block := ⟨42, [c5w_ct], []⟩

/-- Initial state for the conservation witness: `q.aleo/g` called 5 times. -/
def c5w_state : RelState :=
  ⟨[], [⟨1, "q.aleo"⟩], [], [⟨1, "g", 5⟩], [], [], [], [], []⟩

/-- A reverted Deploy of `p.aleo` paying its fee in `credits.aleo`. -/
def c7_ct : ConfirmedTransaction :=
  ConfirmedTransaction.acceptedDeploy
    (Transaction.deploy "t1" ⟨"credits.aleo", "fee_public"⟩ "p.aleo")

/-- The reverted block holding the deploy. -/
def c7_block : Block := ⟨95, [c7_ct], []⟩

/-- Initial state with a `program` row and a `mapping` row for `p.aleo`. -/
def c7_state : RelState :=
  ⟨[], [⟨1, "p.aleo"⟩], [⟨"map1", "p.aleo"⟩], [], [], [], [], [], []⟩

/-- A cache with a stale rollback backup and a snapshot for the primary
family. -/
def c9_redis : Redis :=
  ⟨[("credits.aleo:bonded:rollback_backup:1", "x"),
    ("credits.aleo:bonded:history:0", "b")], []⟩

/-! ## Theorems -/

example : transition_set (ConfirmedTransaction.rejectedDeploy
    (Transaction.fee "t" ⟨"credits.aleo", "fee_public"⟩) Rejected.deployment) =
    Except.ok [⟨"credits.aleo", "fee_public"⟩] := by rfl

example : "a1" ∈ get_addresses_from_struct
    [("x", Plaintext.literal ⟨LiteralType.Address, "a1"⟩),
     ("y", Plaintext.literal ⟨LiteralType.Field, "5"⟩)] := by decide

example : (revert_to_last_backup ex_state).1 = Except.ok () := by rfl

example : (revert_to_last_backup ex_state).2.2.count Event.commit = 1 := by decide

/-! ## Theorems -/
/-- C6: for a Fee transaction the reversal transition set is the fee
transition alone under a RejectedDeploy wrapper; all transitions of the
rejected execution plus the fee transition under a RejectedExecute wrapper
with an execution-kind payload; the invalid-payload failure when the
RejectedExecute payload is not an execution; and the invalid-shape failure
when the Fee transaction is not wrapped in a Rejected variant. -/
theorem fee_transition_set (id : String) (ft : Transition) (ts : List Transition)
    (rej : Rejected) :
    transition_set (ConfirmedTransaction.rejectedDeploy (Transaction.fee id ft) rej)
      = Except.ok [ft]
  ∧ transition_set (ConfirmedTransaction.rejectedExecute (Transaction.fee id ft)
        (Rejected.execution ts)) = Except.ok (ts ++ [ft])
  ∧ transition_set (ConfirmedTransaction.rejectedExecute (Transaction.fee id ft)
        Rejected.deployment) = Except.error RevertErr.wrongTransactionData
  ∧ transition_set (ConfirmedTransaction.acceptedDeploy (Transaction.fee id ft))
      = Except.error RevertErr.wrongTransactionType
  ∧ transition_set (ConfirmedTransaction.acceptedExecute (Transaction.fee id ft))
      = Except.error RevertErr.wrongTransactionType :=
  ⟨rfl, rfl, rfl, rfl, rfl⟩

/-- No address is reachable from an empty member list. -/
theorem memberAddr_nil (s : String) : ¬ MemberAddr [] s := by
  intro h
  cases h with
  | here _ n s h' => simp at h'
  | nested _ n ms s h' hrec => simp at h'

/-- Reachable addresses are preserved when a member is prepended. -/
theorem memberAddr_cons (x : String × Plaintext) (rest : List (String × Plaintext))
    (s : String) (h : MemberAddr rest s) : MemberAddr (x :: rest) s := by
  cases h with
  | here _ n s h' => exact MemberAddr.here _ n s (List.mem_cons_of_mem x h')
  | nested _ n ms s h' hrec => exact MemberAddr.nested _ n ms s (List.mem_cons_of_mem x h') hrec

/-- Size-bounded form of the address-collection characterisation, proved by
strong induction on the size of the member list. -/
theorem struct_addresses_mem_aux :
    ∀ (n : Nat) (members : List (String × Plaintext)), sizeOf members < n →
      ∀ s : String, (s ∈ struct_addresses members ↔ MemberAddr members s) := by
  intro n
  induction n with
  | zero => exact fun members h => absurd h (Nat.not_lt_zero _)
  | succ n ih =>
    intro members hlt s
    cases members with
    | nil =>
      simp only [struct_addresses, Finset.not_mem_empty, false_iff]
      exact memberAddr_nil s
    | cons hd rest =>
      obtain ⟨nm, p⟩ := hd
      have hrest : sizeOf rest < n := by
        simp only [List.cons.sizeOf_spec] at hlt; omega
      simp only [struct_addresses, Finset.mem_union]
      cases p with
      | literal l =>
        simp only [plaintext_addresses]
        constructor
        · intro h
          rcases h with h | h
          · by_cases ha : l.type = LiteralType.Address
            · rw [if_pos ha, Finset.mem_singleton] at h
              subst h
              refine MemberAddr.here _ nm l.primitive ?_
              have hl : l = ⟨LiteralType.Address, l.primitive⟩ := by
                cases l; simp_all
              rw [← hl]
              exact List.mem_cons_self _ _
            · rw [if_neg ha] at h
              exact absurd h (Finset.not_mem_empty _)
          · exact memberAddr_cons _ _ _ ((ih rest hrest s).mp h)
        · intro h
          cases h with
          | here _ n' s' h' =>
            rcases List.mem_cons.mp h' with heq | hmem
            · left
              have h2 : Plaintext.literal ⟨LiteralType.Address, s⟩ = Plaintext.literal l := by
                exact congrArg Prod.snd heq
              injection h2 with h3
              rw [← h3]
              simp
            · exact Or.inr ((ih rest hrest s).mpr (MemberAddr.here rest n' s hmem))
          | nested _ n' ms s' h' hrec =>
            rcases List.mem_cons.mp h' with heq | hmem
            · have h2 : Plaintext.struct ms = Plaintext.literal l := congrArg Prod.snd heq
              simp at h2
            · exact Or.inr ((ih rest hrest s).mpr (MemberAddr.nested rest n' ms s hmem hrec))
      | struct ms =>
        have hms : sizeOf ms < n := by
          simp only [List.cons.sizeOf_spec, Prod.mk.sizeOf_spec,
            Plaintext.struct.sizeOf_spec] at hlt
          omega
        simp only [plaintext_addresses]
        constructor
        · intro h
          rcases h with h | h
          · exact MemberAddr.nested _ nm ms s (List.mem_cons_self _ _) ((ih ms hms s).mp h)
          · exact memberAddr_cons _ _ _ ((ih rest hrest s).mp h)
        · intro h
          cases h with
          | here _ n' s' h' =>
            rcases List.mem_cons.mp h' with heq | hmem
            · have h2 : Plaintext.literal ⟨LiteralType.Address, s⟩ = Plaintext.struct ms :=
                congrArg Prod.snd heq
              simp at h2
            · exact Or.inr ((ih rest hrest s).mpr (MemberAddr.here rest n' s hmem))
          | nested _ n' ms' s' h' hrec =>
            rcases List.mem_cons.mp h' with heq | hmem
            · have h2 : Plaintext.struct ms' = Plaintext.struct ms := congrArg Prod.snd heq
              injection h2 with h3
              subst h3
              exact Or.inl ((ih ms' hms s).mpr hrec)
            · exact Or.inr ((ih rest hrest s).mpr (MemberAddr.nested rest n' ms' s hmem hrec))
      | array es =>
        simp only [plaintext_addresses]
        constructor
        · intro h
          rcases h with h | h
          · exact absurd h (Finset.not_mem_empty _)
          · exact memberAddr_cons _ _ _ ((ih rest hrest s).mp h)
        · intro h
          cases h with
          | here _ n' s' h' =>
            rcases List.mem_cons.mp h' with heq | hmem
            · have h2 : Plaintext.literal ⟨LiteralType.Address, s⟩ = Plaintext.array es :=
                congrArg Prod.snd heq
              simp at h2
            · exact Or.inr ((ih rest hrest s).mpr (MemberAddr.here rest n' s hmem))
          | nested _ n' ms' s' h' hrec =>
            rcases List.mem_cons.mp h' with heq | hmem
            · have h2 : Plaintext.struct ms' = Plaintext.array es := congrArg Prod.snd heq
              simp at h2
            · exact Or.inr ((ih rest hrest s).mpr (MemberAddr.nested rest n' ms' s hmem hrec))

/-- C10: the result of `get_addresses_from_struct` is exactly the set of
string renderings of `Address`-typed literal members, collected recursively
through nested struct members; members of any other kind contribute nothing.
Being a finite set, the result has no duplicates. -/
theorem get_addresses_from_struct_characterisation
    (members : List (String × Plaintext)) (s : String) :
    s ∈ get_addresses_from_struct members ↔ MemberAddr members s :=
  struct_addresses_mem_aux (sizeOf members + 1) members (Nat.lt_succ_self _) s

/-- C2 counterexample: for a RejectedDeploy whose stored original id is
absent, the code leaves the row completely unchanged — the confirmation
linkage `some 7` is NOT cleared, contradicting the claim that "only the
confirmation linkage is cleared". -/
theorem revert_confirmation_keeps_linkage_counterexample :
    (revert_confirmation c2_ct c2_table).1 = Except.ok [⟨"t1", none, some 7, "Fee"⟩]
  ∧ (revert_confirmation c2_ct c2_table).1 ≠ Except.ok [⟨"t1", none, none, "Fee"⟩] := by
  constructor
  · rfl
  · intro h
    rw [show (revert_confirmation c2_ct c2_table).1
          = Except.ok [(⟨"t1", none, some 7, "Fee"⟩ : TxRow)] from rfl] at h
    simp at h

/-- C2 (amended): for a RejectedDeploy/RejectedExecute confirmed transaction,
the stored original-transaction-id is looked up by transaction id, failing
when no row exists; when an original id is present the identity is restored
to it with the type set per variant and both the original-id field and the
confirmation linkage cleared; when the stored original id is absent the row
is left completely unchanged (no statement at all — in particular the
confirmation linkage is NOT cleared); only non-rejected variants get the
plain linkage-clearing update. -/
theorem revert_confirmation_semantics (ct : ConfirmedTransaction) (table : List TxRow) :
    (ct.is_rejected = true →
      table.find? (fun r => r.transaction_id == ct.transaction.txid) = none →
      revert_confirmation ct table
        = (Except.error (RevertErr.missingTransaction ct.transaction.txid), 0))
  ∧ (∀ tx rej row orig, ct = ConfirmedTransaction.rejectedDeploy tx rej →
      table.find? (fun r => r.transaction_id == tx.txid) = some row →
      row.original_transaction_id = some orig →
      revert_confirmation ct table
        = (Except.ok (table.map (fun r =>
            if r.transaction_id == tx.txid then
              { r with transaction_id := orig, original_transaction_id := none,
                       confimed_transaction_id := none, type := "Deploy" }
            else r)), 1))
  ∧ (∀ tx rej row orig, ct = ConfirmedTransaction.rejectedExecute tx rej →
      table.find? (fun r => r.transaction_id == tx.txid) = some row →
      row.original_transaction_id = some orig →
      revert_confirmation ct table
        = (Except.ok (table.map (fun r =>
            if r.transaction_id == tx.txid then
              { r with transaction_id := orig, original_transaction_id := none,
                       confimed_transaction_id := none, type := "Execute" }
            else r)), 1))
  ∧ (∀ row, ct.is_rejected = true →
      table.find? (fun r => r.transaction_id == ct.transaction.txid) = some row →
      row.original_transaction_id = none →
      revert_confirmation ct table = (Except.ok table, 0))
  ∧ (ct.is_rejected = false →
      revert_confirmation ct table
        = (Except.ok (table.map (fun r =>
            if r.transaction_id == ct.transaction.txid then
              { r with confimed_transaction_id := none } else r)), 1)) := by
  refine ⟨?_, ?_, ?_, ?_, ?_⟩
  · intro hrej hfind
    simp only [revert_confirmation, hrej, if_true, hfind]
  · intro tx rej row orig hct hfind horig
    subst hct
    simp only [revert_confirmation, ConfirmedTransaction.is_rejected,
      ConfirmedTransaction.transaction, if_true, hfind, horig]
  · intro tx rej row orig hct hfind horig
    subst hct
    simp only [revert_confirmation, ConfirmedTransaction.is_rejected,
      ConfirmedTransaction.transaction, if_true, hfind, horig]
  · intro row hrej hfind horig
    simp only [revert_confirmation, hrej, if_true, hfind, horig]
  · intro hrej
    simp only [revert_confirmation, hrej, Bool.false_eq_true, if_false]

/-- Witness for the amended C2 theorem: a concrete RejectedDeploy with a
recorded original id gets its identity restored. -/
theorem revert_confirmation_semantics_witness :
    revert_confirmation
      (ConfirmedTransaction.rejectedDeploy
        (Transaction.fee "t1" ⟨"credits.aleo", "fee_public"⟩) Rejected.deployment)
      [⟨"t1", some "t0", some 3, "Fee"⟩]
    = (Except.ok [⟨"t0", none, none, "Deploy"⟩], 1) := by
  have h := (revert_confirmation_semantics
    (ConfirmedTransaction.rejectedDeploy
      (Transaction.fee "t1" ⟨"credits.aleo", "fee_public"⟩) Rejected.deployment)
    [⟨"t1", some "t0", some 3, "Fee"⟩]).2.1
    (Transaction.fee "t1" ⟨"credits.aleo", "fee_public"⟩) Rejected.deployment
    ⟨"t1", some "t0", some 3, "Fee"⟩ "t0" rfl rfl rfl
  exact h.trans (by rfl)

/-- The defaulted last element of a non-empty list is a member. -/
theorem getLastD_mem {α : Type _} : ∀ (l : List α), l ≠ [] → ∀ d, l.getLastD d ∈ l := by
  intro l
  induction l with
  | nil => intro h; exact absurd rfl h
  | cons a l ih =>
    intro _ d
    cases l with
    | nil => simp [List.getLastD]
    | cons b m =>
      rw [List.getLastD_cons]
      exact List.mem_cons_of_mem _ (ih (by simp) a)

/-- The defaulted last element of a non-empty list does not depend on the
default. -/
theorem getLastD_cons_eq {α : Type _} (b : α) (m : List α) (d e : α) :
    (b :: m).getLastD d = (b :: m).getLastD e := rfl

/-- In a list sorted by ascending height, every element's height is at most
the last element's. -/
theorem sorted_getLastD_max :
    ∀ (l : List String), l.Pairwise (fun a b => key_height a ≤ key_height b) →
      ∀ x ∈ l, key_height x ≤ key_height (l.getLastD "") := by
  intro l
  induction l with
  | nil => intro _ x hx; simp at hx
  | cons a l ih =>
    intro hs x hx
    cases l with
    | nil =>
      simp at hx
      subst hx
      simp [List.getLastD]
    | cons b m =>
      rw [List.getLastD_cons]
      rcases List.mem_cons.mp hx with h | hx2
      · subst h
        exact ((List.pairwise_cons.mp hs).1 _ (getLastD_mem (b :: m) (by simp) _))
      · rw [getLastD_cons_eq b m a ""]
        exact ih (List.pairwise_cons.mp hs).2 x hx2

/-- Every key's parsed height is at most the selected backup height. -/
theorem key_height_le_selected (keys : List String) (x : String) (hx : x ∈ keys) :
    key_height x ≤ selected_backup_height keys := by
  have hs := List.sorted_insertionSort (fun a b => key_height a ≤ key_height b) keys
  have hmem : x ∈ List.insertionSort (fun a b => key_height a ≤ key_height b) keys :=
    (List.perm_insertionSort (fun a b => key_height a ≤ key_height b) keys).mem_iff.mpr hx
  exact sorted_getLastD_max _ hs x hmem

/-- For non-empty key lists the selected backup height is attained. -/
theorem selected_attained (keys : List String) (hne : keys ≠ []) :
    ∃ k ∈ keys, key_height k = selected_backup_height keys := by
  have hpe := List.perm_insertionSort (fun a b => key_height a ≤ key_height b) keys
  have hne2 : sort_backup_keys keys ≠ [] := by
    intro h
    have hlen := hpe.length_eq
    rw [show List.insertionSort (fun a b => key_height a ≤ key_height b) keys
          = sort_backup_keys keys from rfl, h] at hlen
    exact hne (List.eq_nil_of_length_eq_zero hlen.symm)
  refine ⟨(sort_backup_keys keys).getLastD "", ?_, rfl⟩
  exact hpe.mem_iff.mp (getLastD_mem _ hne2 "")

/-- C4: the checkpoint locator rejects a non-zero continuation cursor with
the unsupported-catalog failure; rejects an empty snapshot enumeration with
the no-checkpoint failure; on success returns the greatest snapshot height of
the primary family and has verified a snapshot of every tracked family at
that height; when some family lacks a snapshot at the selected height it
fails naming a missing family's key; and every locator failure leaves both
stores untouched — the whole run performs no relational write and no cache
event, only the signal block, the error report and the signal unblock. -/
theorem locate_checkpoint_contract (cursor : Nat) (keys : List String) (r : Redis)
    (st : FullState) :
    (cursor ≠ 0 → locate_checkpoint cursor keys r
      = Except.error RevertErr.unsupportedConfiguration)
  ∧ (keys = [] → locate_checkpoint 0 keys r = Except.error RevertErr.noBackupFound)
  ∧ (∀ h, locate_checkpoint 0 keys r = Except.ok h →
      (∀ k ∈ keys, key_height k ≤ h)
      ∧ (∃ k ∈ keys, key_height k = h)
      ∧ (∀ fam ∈ redis_keys, r.hasKey (fam ++ ":history:" ++ toString h) = true))
  ∧ (keys ≠ [] →
      (∃ fam ∈ redis_keys,
        r.hasKey (fam ++ ":history:" ++ toString (selected_backup_height keys)) = false) →
      ∃ fam ∈ redis_keys,
        r.hasKey (fam ++ ":history:" ++ toString (selected_backup_height keys)) = false
        ∧ locate_checkpoint 0 keys r
          = Except.error (RevertErr.backupKeyNotFound
              (fam ++ ":history:" ++ toString (selected_backup_height keys))))
  ∧ (∀ e, locate_checkpoint 0 (st.redis.scan_keys "credits.aleo:bonded:history:") st.redis
        = Except.error e →
      revert_to_last_backup st
        = (Except.error e, { st with sigint_blocked := false },
           [Event.sigBlock, Event.report, Event.sigUnblock])) := by
  refine ⟨?_, ?_, ?_, ?_, ?_⟩
  · intro hc
    rw [locate_checkpoint, if_pos hc]
  · intro hk
    subst hk
    simp [locate_checkpoint]
  · intro h hok
    rw [locate_checkpoint] at hok
    simp only [ne_eq, not_true_eq_false, if_false, reduceIte] at hok
    by_cases hempty : keys.isEmpty
    · rw [if_pos hempty] at hok
      exact absurd hok (by simp)
    · rw [if_neg hempty] at hok
      rcases hfind : redis_keys.find? (fun k =>
          !(r.hasKey (k ++ ":history:" ++ toString (selected_backup_height keys)))) with _ | fam
      · rw [hfind] at hok
        have hsel : selected_backup_height keys = h := by
          simpa using hok
        subst hsel
        refine ⟨fun k hk => key_height_le_selected keys k hk,
          selected_attained keys (by simpa [List.isEmpty_iff] using hempty), ?_⟩
        intro fam hfam
        have := List.find?_eq_none.mp hfind fam hfam
        simpa using this
      · rw [hfind] at hok
        exact absurd hok (by simp)
  · intro hne hex
    rcases hfind : redis_keys.find? (fun k =>
        !(r.hasKey (k ++ ":history:" ++ toString (selected_backup_height keys)))) with _ | fam
    · exfalso
      obtain ⟨fam, hfam, hmiss⟩ := hex
      have := List.find?_eq_none.mp hfind fam hfam
      simp [hmiss] at this
    · refine ⟨fam, List.mem_of_find?_eq_some hfind, ?_, ?_⟩
      · have := List.find?_some hfind
        simpa using this
      · rw [locate_checkpoint]
        simp only [ne_eq, not_true_eq_false, if_false, reduceIte]
        rw [if_neg (by simpa [List.isEmpty_iff] using hne), hfind]
  · intro e herr
    rw [revert_to_last_backup, revert_body]
    have hred : ({ st with sigint_blocked := true } : FullState).redis = st.redis := rfl
    rw [hred, herr]
    rfl

/-- Witness for the locator contract at concrete inputs: a non-zero cursor is
rejected, an empty enumeration is rejected. -/
theorem locate_checkpoint_contract_witness :
    locate_checkpoint 1 ["credits.aleo:bonded:history:0"] ex_redis
      = Except.error RevertErr.unsupportedConfiguration
  ∧ locate_checkpoint 0 ([] : List String) ex_redis
      = Except.error RevertErr.noBackupFound :=
  ⟨(locate_checkpoint_contract 1 ["credits.aleo:bonded:history:0"] ex_redis ex_state).1
      (by decide),
   (locate_checkpoint_contract 0 [] ex_redis ex_state).2.1 rfl⟩

/-- One family's restore step emits only cache events. -/
theorem cache_restore_family_events (r : Redis) (f : String) (h : Nat) :
    ∀ e ∈ (cache_restore_family r f h).2, e.is_cache_event = true := by
  intro e he
  simp only [cache_restore_family] at he
  rcases List.mem_cons.mp he with h1 | h2
  · subst h1; rfl
  · obtain ⟨k, _, hk⟩ := List.mem_map.mp h2
    rw [← hk]; rfl

/-- The family fold emits only cache events, given a cache-event accumulator. -/
theorem cache_restore_fold_events (hgt : Nat) :
    ∀ (fams : List String) (acc : Redis × List Event),
      (∀ e ∈ acc.2, e.is_cache_event = true) →
      ∀ e ∈ (fams.foldl (fun acc family =>
          let step := cache_restore_family acc.1 family hgt
          (step.1, acc.2 ++ step.2)) acc).2, e.is_cache_event = true := by
  intro fams
  induction fams with
  | nil => exact fun acc hacc e he => hacc e he
  | cons f fs ih =>
    intro acc hacc e he
    rw [List.foldl_cons] at he
    refine ih _ ?_ e he
    intro x hx
    rcases List.mem_append.mp hx with h1 | h2
    · exact hacc x h1
    · exact cache_restore_family_events _ _ _ x h2

/-- The cache-restore loop emits only cache events. -/
theorem cache_restore_events (r : Redis) (hgt : Nat) :
    ∀ e ∈ (cache_restore r hgt).2, e.is_cache_event = true :=
  fun e he => cache_restore_fold_events hgt redis_keys (r, []) (by simp) e he

/-- The body of the revert emits only cache events in its event component. -/
theorem revert_body_cache_events (st : FullState) :
    ∀ e ∈ (revert_body st).2.2, e.is_cache_event = true := by
  intro e he
  rw [revert_body] at he
  rcases hloc : locate_checkpoint 0
      (st.redis.scan_keys "credits.aleo:bonded:history:") st.redis with e0 | h
  · rw [hloc] at he
    simp at he
  · rw [hloc] at he
    rcases hpb : process_blocks
        (get_full_block_range u32_max h (rebuild_mapping_value st.rel h).1)
        (rebuild_mapping_value st.rel h).1 with ⟨res, w2⟩
    simp only [hpb] at he
    cases res with
    | error e2 => simp at he
    | ok rel2 =>
      simp only [] at he
      exact cache_restore_events st.redis h e he

/-- The last element of a trace of the form `x :: (A ++ B ++ [c, d])`. -/
theorem trace_last {α : Type _} (x c d : α) (A B : List α) :
    (x :: (A ++ B ++ [c, d])).getLast? = some d := by
  have hsh : x :: (A ++ B ++ [c, d]) = (x :: (A ++ B ++ [c])) ++ [d] := by simp
  rw [hsh, List.getLast?_concat]

/-- Every trace of the coordinator is the signal block, then relational
writes, then cache events, then either the commit or the report, then the
signal unblock. -/
theorem trace_shape (st : FullState) :
    ∃ (w : Nat) (cev tail : List Event),
      (revert_to_last_backup st).2.2
        = Event.sigBlock :: (List.replicate w Event.relWrite ++ cev ++ tail)
      ∧ (∀ e ∈ cev, e.is_cache_event = true)
      ∧ (tail = [Event.commit, Event.sigUnblock] ∨ tail = [Event.report, Event.sigUnblock]) := by
  rw [revert_to_last_backup]
  rcases hbody : revert_body { st with sigint_blocked := true } with ⟨res, w, cev⟩
  have hcev : ∀ e ∈ cev, e.is_cache_event = true := by
    have h2 := revert_body_cache_events { st with sigint_blocked := true }
    rw [hbody] at h2
    exact h2
  cases res with
  | ok st2 => exact ⟨w, cev, [Event.commit, Event.sigUnblock], rfl, hcev, Or.inl rfl⟩
  | error e => exact ⟨w, cev, [Event.report, Event.sigUnblock], rfl, hcev, Or.inr rfl⟩

/-- C8: the coordinator blocks SIGINT before any work (the first event of
every trace), unblocks it exactly once, and the unblock is the very last
event on every exit path — in particular, on the failure path it precedes
the re-raise (nothing else follows it). -/
theorem guard_contract (st : FullState) :
    (revert_to_last_backup st).2.2.head? = some Event.sigBlock
  ∧ (revert_to_last_backup st).2.2.getLast? = some Event.sigUnblock
  ∧ (revert_to_last_backup st).2.2.count Event.sigBlock = 1
  ∧ (revert_to_last_backup st).2.2.count Event.sigUnblock = 1 := by
  obtain ⟨w, cev, tail, htr, hcev, htail⟩ := trace_shape st
  have hnosig : ∀ a : Event, a.is_cache_event = false → List.count a cev = 0 := by
    intro a ha
    rw [List.count_eq_zero]
    intro hmem
    have h2 := hcev a hmem
    rw [ha] at h2
    exact Bool.false_ne_true h2
  rcases htail with h | h <;> subst h <;> rw [htr] <;>
    refine ⟨rfl, trace_last _ _ _ _ _, ?_, ?_⟩ <;>
    simp [List.count_cons, List.count_append, List.count_replicate,
      hnosig Event.sigBlock rfl, hnosig Event.sigUnblock rfl]

/-- C1 (amended): on every successful run, the whole cache-restore step —
every per-family restore and backup deletion — executes strictly before the
relational transaction's commit: the trace ends with the commit and the
signal unblock, and no commit occurs earlier.  (The restore is therefore
inside the transaction block, not after it; it is still not atomic with the
relational writes, which the engine can roll back while cache writes
persist.) -/
theorem cache_restore_precedes_commit (st : FullState)
    (h : (revert_to_last_backup st).1 = Except.ok ()) :
    ∃ ev : List Event,
      (revert_to_last_backup st).2.2
          = Event.sigBlock :: (ev ++ [Event.commit, Event.sigUnblock])
      ∧ Event.commit ∉ ev
      ∧ ∀ fam, Event.cacheRestore fam ∈ (revert_to_last_backup st).2.2 →
          Event.cacheRestore fam ∈ ev := by
  rw [revert_to_last_backup] at h ⊢
  rcases hbody : revert_body { st with sigint_blocked := true } with ⟨res, w, cev⟩
  have hcev : ∀ e ∈ cev, e.is_cache_event = true := by
    have h2 := revert_body_cache_events { st with sigint_blocked := true }
    rw [hbody] at h2
    exact h2
  cases res with
  | error e =>
    rw [hbody] at h
    simp at h
  | ok st2 =>
    refine ⟨List.replicate w Event.relWrite ++ cev, by simp, ?_, ?_⟩
    · intro hmem
      rcases List.mem_append.mp hmem with h1 | h2
      · have h3 := List.eq_of_mem_replicate h1
        simp at h3
      · have h3 := hcev _ h2
        simp [Event.is_cache_event] at h3
    · intro fam hmem
      rcases List.mem_cons.mp hmem with h1 | h2
      · simp at h1
      · rcases List.mem_append.mp h2 with h3 | h4
        · exact h3
        · simp at h4

/-- Witness for the amended C1 theorem at the concrete success state. -/
theorem cache_restore_precedes_commit_witness :
    ∃ ev : List Event,
      (revert_to_last_backup ex_state).2.2
          = Event.sigBlock :: (ev ++ [Event.commit, Event.sigUnblock])
      ∧ Event.commit ∉ ev
      ∧ ∀ fam, Event.cacheRestore fam ∈ (revert_to_last_backup ex_state).2.2 →
          Event.cacheRestore fam ∈ ev :=
  cache_restore_precedes_commit ex_state (by rfl)

/-- C1 counterexample: on a concrete state where the revert succeeds, the
per-family cache restore events appear in the trace strictly BEFORE the
relational commit, refuting the claim that the cache restore runs only after
the relational transaction has committed. -/
theorem cache_restore_before_commit_counterexample :
    (revert_to_last_backup ex_state).1 = Except.ok ()
  ∧ Event.cacheRestore "credits.aleo:bonded" ∈ (revert_to_last_backup ex_state).2.2
  ∧ Event.commit ∈ (revert_to_last_backup ex_state).2.2
  ∧ (revert_to_last_backup ex_state).2.2.indexOf (Event.cacheRestore "credits.aleo:bonded")
      < (revert_to_last_backup ex_state).2.2.indexOf Event.commit := by
  refine ⟨by rfl, ?_, ?_, ?_⟩ <;> decide

/-- Characterisation of the `best_step` fold started from a seed entry. -/
theorem foldl_best_some_char (m k : String) :
    ∀ (L : List HistEntry) (a : HistEntry),
      ∃ e, L.foldl (best_step m k) (some a) = some e
        ∧ (e = a ∨ (e ∈ L ∧ (e.mapping_id == m && e.key_id == k) = true))
        ∧ a.id ≤ e.id
        ∧ ∀ x ∈ L, (x.mapping_id == m && x.key_id == k) = true → x.id ≤ e.id := by
  intro L
  induction L with
  | nil => exact fun a => ⟨a, rfl, Or.inl rfl, Nat.le_refl _, by simp⟩
  | cons x L2 ih =>
    intro a
    rw [List.foldl_cons]
    by_cases hm : (x.mapping_id == m && x.key_id == k) = true
    · by_cases hlt : a.id < x.id
      · rw [show best_step m k (some a) x = some x by
          simp only [best_step, hm, if_true, hlt, reduceIte]]
        obtain ⟨e, heq, hor, hle, hall⟩ := ih x
        refine ⟨e, heq, ?_, Nat.le_trans (Nat.le_of_lt hlt) hle, ?_⟩
        · rcases hor with h | h
          · exact Or.inr ⟨h ▸ List.mem_cons_self x L2, h ▸ hm⟩
          · exact Or.inr ⟨List.mem_cons_of_mem x h.1, h.2⟩
        · intro y hy hmy
          rcases List.mem_cons.mp hy with h | h
          · exact h ▸ hle
          · exact hall y h hmy
      · rw [show best_step m k (some a) x = some a by
          simp only [best_step, hm, if_true, hlt, reduceIte]]
        obtain ⟨e, heq, hor, hle, hall⟩ := ih a
        refine ⟨e, heq, ?_, hle, ?_⟩
        · rcases hor with h | h
          · exact Or.inl h
          · exact Or.inr ⟨List.mem_cons_of_mem x h.1, h.2⟩
        · intro y hy hmy
          rcases List.mem_cons.mp hy with h | h
          · exact h ▸ Nat.le_trans (Nat.le_of_not_lt hlt) hle
          · exact hall y h hmy
    · rw [show best_step m k (some a) x = some a by
        simp only [best_step, hm, Bool.false_eq_true, if_false, reduceIte]]
      obtain ⟨e, heq, hor, hle, hall⟩ := ih a
      refine ⟨e, heq, ?_, hle, ?_⟩
      · rcases hor with h | h
        · exact Or.inl h
        · exact Or.inr ⟨List.mem_cons_of_mem x h.1, h.2⟩
      · intro y hy hmy
        rcases List.mem_cons.mp hy with h | h
        · exact absurd (h ▸ hmy) hm
        · exact hall y h hmy

/-- Characterisation of the `best_step` fold started from `none`: either no
entry matches the pair, or the fold returns a matching member with the
greatest insertion id. -/
theorem foldl_best_none_char (m k : String) :
    ∀ L : List HistEntry,
      (L.foldl (best_step m k) none = none
        ∧ ∀ x ∈ L, (x.mapping_id == m && x.key_id == k) = false)
      ∨ (∃ e, L.foldl (best_step m k) none = some e
          ∧ e ∈ L ∧ (e.mapping_id == m && e.key_id == k) = true
          ∧ ∀ x ∈ L, (x.mapping_id == m && x.key_id == k) = true → x.id ≤ e.id) := by
  intro L
  induction L with
  | nil => exact Or.inl ⟨rfl, by simp⟩
  | cons x L2 ih =>
    rw [List.foldl_cons]
    by_cases hm : (x.mapping_id == m && x.key_id == k) = true
    · rw [show best_step m k none x = some x by simp only [best_step, hm, if_true]]
      obtain ⟨e, heq, hor, hle, hall⟩ := foldl_best_some_char m k L2 x
      refine Or.inr ⟨e, heq, ?_, ?_, ?_⟩
      · rcases hor with h | h
        · exact h ▸ List.mem_cons_self x L2
        · exact List.mem_cons_of_mem x h.1
      · rcases hor with h | h
        · exact h ▸ hm
        · exact h.2
      · intro y hy hmy
        rcases List.mem_cons.mp hy with h | h
        · exact h ▸ hle
        · exact hall y h hmy
    · rw [show best_step m k none x = none by
        simp only [best_step, hm, Bool.false_eq_true, if_false, reduceIte]]
      rcases ih with ⟨hn, hnone⟩ | ⟨e, heq, hmem, hme, hall⟩
      · refine Or.inl ⟨hn, ?_⟩
        intro y hy
        rcases List.mem_cons.mp hy with h | h
        · rw [h]
          exact Bool.eq_false_iff.mpr hm
        · exact hnone y h
      · refine Or.inr ⟨e, heq, List.mem_cons_of_mem x hmem, hme, ?_⟩
        intro y hy hmy
        rcases List.mem_cons.mp hy with h | h
        · exact absurd (h ▸ hmy) hm
        · exact hall y h hmy

/-- If `best_entry` returns an entry, it is a matching member of greatest
insertion id. -/
theorem best_entry_some (l : List HistEntry) (m k : String) (e : HistEntry)
    (h : best_entry l m k = some e) :
    e ∈ l ∧ e.mapping_id = m ∧ e.key_id = k
    ∧ ∀ x ∈ l, x.mapping_id = m → x.key_id = k → x.id ≤ e.id := by
  rw [best_entry] at h
  rcases foldl_best_none_char m k l with ⟨hn, _⟩ | ⟨e2, heq, hmem, hme, hall⟩
  · rw [hn] at h
    exact absurd h (by simp)
  · rw [heq] at h
    injection h with h2
    subst h2
    have hme2 := hme
    rw [Bool.and_eq_true, beq_iff_eq, beq_iff_eq] at hme2
    refine ⟨hmem, hme2.1, hme2.2, ?_⟩
    intro x hx h1 h2
    exact hall x hx (by rw [Bool.and_eq_true, beq_iff_eq, beq_iff_eq]; exact ⟨h1, h2⟩)

/-- If `best_entry` returns nothing, no entry matches the pair. -/
theorem best_entry_none (l : List HistEntry) (m k : String)
    (h : best_entry l m k = none) :
    ∀ x ∈ l, ¬(x.mapping_id = m ∧ x.key_id = k) := by
  rw [best_entry] at h
  rcases foldl_best_none_char m k l with ⟨_, hnone⟩ | ⟨e2, heq, _, _, _⟩
  · intro x hx hc
    have h2 := hnone x hx
    simp [hc.1, hc.2] at h2
  · rw [heq] at h
    exact absurd h (by simp)

/-- Membership in the height-filtered history. -/
theorem mem_eligible (hist : List HistEntry) (H : Nat) (e : HistEntry) :
    e ∈ eligible_history hist H ↔ e ∈ hist ∧ e.height ≤ H := by
  simp [eligible_history, List.mem_filter]

/-- `find?` returns the unique element satisfying the predicate. -/
theorem find?_unique {α : Type _} (l : List α) (p : α → Bool) (a : α)
    (hmem : a ∈ l) (hpa : p a = true)
    (huniq : ∀ x ∈ l, p x = true → x = a) : l.find? p = some a := by
  induction l with
  | nil => simp at hmem
  | cons x xs ih =>
    by_cases hx : p x = true
    · rw [List.find?_cons_of_pos _ hx]
      rw [huniq x (List.mem_cons_self x xs) hx]
    · rw [List.find?_cons_of_neg _ (by simpa using hx)]
      apply ih
      · rcases List.mem_cons.mp hmem with h | h
        · rw [h] at hpa
          exact absurd hpa hx
        · exact h
      · exact fun y hy hpy => huniq y (List.mem_cons_of_mem x hy) hpy

/-- The latest entry for its pair is what `best_entry` selects among the
eligible entries, provided insertion ids are unique. -/
theorem best_entry_eq_latest (hist : List HistEntry) (H : Nat) (e : HistEntry)
    (hnodup : (hist.map (fun x => x.id)).Nodup)
    (hl : IsLatestEntry hist H e) :
    best_entry (eligible_history hist H) e.mapping_id e.key_id = some e := by
  obtain ⟨hmem, hh, htop⟩ := hl
  have hemem : e ∈ eligible_history hist H := (mem_eligible hist H e).mpr ⟨hmem, hh⟩
  rcases hb : best_entry (eligible_history hist H) e.mapping_id e.key_id with _ | e2
  · exact absurd ⟨rfl, rfl⟩ (best_entry_none _ _ _ hb e hemem)
  · have hc := best_entry_some _ _ _ _ hb
    have h1 : e.id ≤ e2.id := hc.2.2.2 e hemem rfl rfl
    have he2 := (mem_eligible hist H e2).mp hc.1
    have h2 : e2.id ≤ e.id := htop e2 he2.1 hc.2.1 hc.2.2.1 he2.2
    have hid : e2.id = e.id := Nat.le_antisymm h2 h1
    have heq : e2 = e := List.inj_on_of_nodup_map hnodup he2.1 hmem hid
    rw [heq]

/-- Every snapshot row is the `best_entry` of its own pair among the
eligible entries. -/
theorem snapshot_mem (hist : List HistEntry) (H : Nat) (er : HistEntry)
    (h : er ∈ mapping_snapshot hist H) :
    er ∈ eligible_history hist H
    ∧ best_entry (eligible_history hist H) er.mapping_id er.key_id = some er := by
  rw [mapping_snapshot] at h
  obtain ⟨mk, _, hbest⟩ := List.mem_filterMap.mp h
  have hc := best_entry_some _ _ _ _ hbest
  refine ⟨hc.1, ?_⟩
  rw [hc.2.1, hc.2.2.1]
  exact hbest

/-- The snapshot holds at most one entry per pair. -/
theorem snapshot_unique (hist : List HistEntry) (H : Nat) (er1 er2 : HistEntry)
    (h1 : er1 ∈ mapping_snapshot hist H) (h2 : er2 ∈ mapping_snapshot hist H)
    (hm : er2.mapping_id = er1.mapping_id) (hk : er2.key_id = er1.key_id) :
    er1 = er2 := by
  have b1 := (snapshot_mem hist H er1 h1).2
  have b2 := (snapshot_mem hist H er2 h2).2
  rw [hm, hk, b1] at b2
  injection b2

/-- The latest entry of a pair belongs to the snapshot. -/
theorem latest_in_snapshot (hist : List HistEntry) (H : Nat) (e : HistEntry)
    (hnodup : (hist.map (fun x => x.id)).Nodup)
    (hl : IsLatestEntry hist H e) : e ∈ mapping_snapshot hist H := by
  rw [mapping_snapshot]
  refine List.mem_filterMap.mpr ⟨(e.mapping_id, e.key_id), ?_,
    best_entry_eq_latest hist H e hnodup hl⟩
  rw [history_pairs, List.mem_dedup]
  exact List.mem_map.mpr ⟨e, (mem_eligible hist H e).mpr ⟨hl.1, hl.2.1⟩, rfl⟩

/-- C3: after a successful rebuild at checkpoint height `H` (with unique
insertion ids, the database's serial-column invariant), the `mapping_value`
table holds, for every pair, exactly the value of the history entry with the
greatest insertion id among entries of height at most `H`; a pair whose
latest eligible value is absent, or which has no eligible entry, is omitted;
and no history entry above `H` remains. -/
theorem mapping_rebuild_correct (st : RelState) (H : Nat)
    (hnodup : (st.mapping_history.map (fun e => e.id)).Nodup) :
    (∀ e, IsLatestEntry st.mapping_history H e →
        (∀ v, e.value = some v →
            mv_find (rebuild_mapping_value st H).1.mapping_value e.mapping_id e.key_id
              = some ⟨e.mapping_id, e.key_id, get_value_id e.key_id v, e.key, v⟩)
        ∧ (e.value = none →
            mv_find (rebuild_mapping_value st H).1.mapping_value e.mapping_id e.key_id
              = none))
  ∧ (∀ m k, (∀ x ∈ st.mapping_history, x.mapping_id = m → x.key_id = k →
        ¬ x.height ≤ H) →
      mv_find (rebuild_mapping_value st H).1.mapping_value m k = none)
  ∧ (∀ e ∈ (rebuild_mapping_value st H).1.mapping_history, e.height ≤ H) := by
  have hval : (rebuild_mapping_value st H).1.mapping_value
      = (mapping_snapshot st.mapping_history H).filterMap (fun e => e.value.map (fun v =>
          ({ mapping_id := e.mapping_id, key_id := e.key_id,
             value_id := get_value_id e.key_id v, key := e.key, value := v } : ValueRow))) :=
    rfl
  have hrows : ∀ r ∈ (rebuild_mapping_value st H).1.mapping_value,
      ∃ er ∈ mapping_snapshot st.mapping_history H, ∃ v, er.value = some v
        ∧ r = ⟨er.mapping_id, er.key_id, get_value_id er.key_id v, er.key, v⟩ := by
    intro r hr
    rw [hval] at hr
    obtain ⟨er, her, hmap⟩ := List.mem_filterMap.mp hr
    obtain ⟨v, hv, hfr⟩ := Option.map_eq_some'.mp hmap
    exact ⟨er, her, v, hv, hfr.symm⟩
  refine ⟨?_, ?_, ?_⟩
  · intro e hl
    have hsnap := latest_in_snapshot st.mapping_history H e hnodup hl
    constructor
    · intro v hv
      rw [mv_find, hval]
      apply find?_unique
      · rw [← hval]
        rw [hval]
        refine List.mem_filterMap.mpr ⟨e, hsnap, ?_⟩
        rw [hv]
        rfl
      · simp
      · intro r hr hpr
        rw [← hval] at hr
        obtain ⟨er, her, v2, hv2, hfr⟩ := hrows r hr
        rw [hfr] at hpr
        simp only [Bool.and_eq_true, beq_iff_eq] at hpr
        have heq : e = er := snapshot_unique st.mapping_history H e er hsnap her hpr.1 hpr.2
        rw [← heq] at hv2
        rw [hv] at hv2
        injection hv2 with hveq
        rw [hfr, ← heq, hveq]
    · intro hv
      rw [mv_find]
      rw [List.find?_eq_none]
      intro r hr
      obtain ⟨er, her, v2, hv2, hfr⟩ := hrows r hr
      intro hpr
      rw [hfr] at hpr
      simp only [Bool.and_eq_true, beq_iff_eq] at hpr
      have heq : e = er := snapshot_unique st.mapping_history H e er hsnap her hpr.1 hpr.2
      rw [← heq, hv] at hv2
      exact Option.noConfusion hv2
  · intro m k hnone
    rw [mv_find, List.find?_eq_none]
    intro r hr
    obtain ⟨er, her, v2, hv2, hfr⟩ := hrows r hr
    intro hpr
    rw [hfr] at hpr
    simp only [Bool.and_eq_true, beq_iff_eq] at hpr
    have helig := (snapshot_mem st.mapping_history H er her).1
    have hm2 := (mem_eligible st.mapping_history H er).mp helig
    exact hnone er hm2.1 hpr.1 hpr.2 hm2.2
  · intro e he
    have hh : (rebuild_mapping_value st H).1.mapping_history
        = st.mapping_history.filter (fun e => decide (e.height ≤ H)) := rfl
    rw [hh] at he
    simpa using (List.mem_filter.mp he).2

/-- Witness for the mapping-rebuild theorem: two writes to the same pair at
heights 5 and 7; reverting to height 6 restores the height-5 value. -/
theorem mapping_rebuild_correct_witness :
    mv_find (rebuild_mapping_value
        ⟨[], [], [], [], [],
         [⟨1, "m", "k", "kb", some "v1", 5⟩, ⟨2, "m", "k", "kb", some "v2", 7⟩],
         [⟨"m", "k", "old", "kb", "v2"⟩], [], []⟩ 6).1.mapping_value "m" "k"
      = some ⟨"m", "k", get_value_id "k" "v1", "kb", "v1"⟩ :=
  ((mapping_rebuild_correct
      ⟨[], [], [], [], [],
       [⟨1, "m", "k", "kb", some "v1", 5⟩, ⟨2, "m", "k", "kb", some "v2", 7⟩],
       [⟨"m", "k", "old", "kb", "v2"⟩], [], []⟩ 6 (by decide)).1
    ⟨1, "m", "k", "kb", some "v1", 5⟩
    ⟨by decide, by decide, by decide⟩).1 "v1" rfl

/-! ## Block-walk structure lemmas -/
/-- Successful per-transaction processing decomposes into a successful
confirmation revert, a successful transition-set computation, the deploy
deletes and the decrement fold. -/
theorem process_ct_ok (ct : ConfirmedTransaction) (st st3 : RelState) (w : Nat)
    (h : process_ct ct st = (Except.ok st3, w)) :
    ∃ table w1 ts,
      revert_confirmation ct st.transaction = (Except.ok table, w1)
      ∧ transition_set ct = Except.ok ts
      ∧ st3 = ts.foldl (fun s t => decrement_called t s)
          (deploy_deletes ct { st with transaction := table }).1 := by
  rw [process_ct] at h
  rcases hrc : revert_confirmation ct st.transaction with ⟨res1, w1⟩
  rw [hrc] at h
  cases res1 with
  | error e => simp at h
  | ok table =>
    rcases hts : transition_set ct with e | ts
    · rw [hts] at h
      simp at h
    · rw [hts] at h
      dsimp only at h
      injection h with h1 h2
      injection h1 with h3
      exact ⟨table, w1, ts, rfl, rfl, h3.symm⟩

/-- Successful transaction-list processing decomposes head-first. -/
theorem process_cts_cons_ok (ct : ConfirmedTransaction)
    (cts : List ConfirmedTransaction) (st st2 : RelState) (w : Nat)
    (h : process_cts (ct :: cts) st = (Except.ok st2, w)) :
    ∃ st1 w1 w2, process_ct ct st = (Except.ok st1, w1)
      ∧ process_cts cts st1 = (Except.ok st2, w2) := by
  rw [process_cts] at h
  rcases hc : process_ct ct st with ⟨res1, w1⟩
  rw [hc] at h
  cases res1 with
  | error e => simp at h
  | ok st1 =>
    dsimp only at h
    rcases hr : process_cts cts st1 with ⟨res2, w2⟩
    rw [hr] at h
    dsimp only at h
    injection h with h1 h2
    subst h1
    exact ⟨st1, w1, w2, rfl, hr⟩

/-- Successful block processing decomposes into the transaction loop and the
leaderboard reversal. -/
theorem process_block_ok (b : Block) (st st2 : RelState) (w : Nat)
    (h : process_block b st = (Except.ok st2, w)) :
    ∃ st1 w1, process_cts b.transactions st = (Except.ok st1, w1)
      ∧ st2 = (revert_leaderboard b st1).1 := by
  rw [process_block] at h
  rcases hc : process_cts b.transactions st with ⟨res1, w1⟩
  rw [hc] at h
  cases res1 with
  | error e => simp at h
  | ok st1 =>
    dsimp only at h
    injection h with h1 h2
    injection h1 with h3
    exact ⟨st1, w1, rfl, h3.symm⟩

/-- Successful block-list processing decomposes head-first. -/
theorem process_blocks_cons_ok (b : Block) (bs : List Block) (st st2 : RelState)
    (w : Nat) (h : process_blocks (b :: bs) st = (Except.ok st2, w)) :
    ∃ st1 w1 w2, process_block b st = (Except.ok st1, w1)
      ∧ process_blocks bs st1 = (Except.ok st2, w2) := by
  rw [process_blocks] at h
  rcases hc : process_block b st with ⟨res1, w1⟩
  rw [hc] at h
  cases res1 with
  | error e => simp at h
  | ok st1 =>
    dsimp only at h
    rcases hr : process_blocks bs st1 with ⟨res2, w2⟩
    rw [hr] at h
    dsimp only at h
    injection h with h1 h2
    subst h1
    exact ⟨st1, w1, w2, rfl, hr⟩

/-- The decrement fold touches only `program_function`. -/
theorem decrement_fold_skeleton (ts : List Transition) :
    ∀ st : RelState,
      (ts.foldl (fun s t => decrement_called t s) st).program = st.program
      ∧ (ts.foldl (fun s t => decrement_called t s) st).mapping = st.mapping := by
  induction ts with
  | nil => exact fun st => ⟨rfl, rfl⟩
  | cons t ts ih =>
    intro st
    rw [List.foldl_cons]
    exact ih (decrement_called t st)

/-- The deploy deletes only shrink `program` and `mapping` and leave the
other tables alone. -/
theorem deploy_deletes_skeleton (ct : ConfirmedTransaction) (st : RelState) :
    (∀ p ∈ (deploy_deletes ct st).1.program, p ∈ st.program)
    ∧ (∀ mr ∈ (deploy_deletes ct st).1.mapping, mr ∈ st.mapping)
    ∧ (deploy_deletes ct st).1.program_function = st.program_function
    ∧ (deploy_deletes ct st).1.transaction = st.transaction := by
  rw [deploy_deletes]
  cases htx : ct.transaction with
  | deploy i ft pid =>
    exact ⟨fun p hp => (List.mem_filter.mp hp).1,
      fun mr hmr => (List.mem_filter.mp hmr).1, rfl, rfl⟩
  | execute i ts0 af => exact ⟨fun p hp => hp, fun mr hmr => hmr, rfl, rfl⟩
  | fee i ft => exact ⟨fun p hp => hp, fun mr hmr => hmr, rfl, rfl⟩

/-- Per-transaction processing never adds `program` or `mapping` rows. -/
theorem process_ct_subset (ct : ConfirmedTransaction) (st st3 : RelState) (w : Nat)
    (h : process_ct ct st = (Except.ok st3, w)) :
    (∀ p ∈ st3.program, p ∈ st.program) ∧ (∀ mr ∈ st3.mapping, mr ∈ st.mapping) := by
  obtain ⟨table, w1, ts, _, _, hst3⟩ := process_ct_ok ct st st3 w h
  subst hst3
  obtain ⟨hp, hm⟩ := decrement_fold_skeleton ts
    (deploy_deletes ct { st with transaction := table }).1
  rw [hp, hm]
  obtain ⟨hdp, hdm, _, _⟩ := deploy_deletes_skeleton ct { st with transaction := table }
  exact ⟨hdp, hdm⟩

/-- The leaderboard fold touches only `leaderboard`. -/
theorem leaderboard_fold_skeleton (sols : List (String × Int)) :
    ∀ st : RelState,
      (sols.foldl (fun s ar =>
        { s with leaderboard := s.leaderboard.map (fun e =>
            if e.1 == ar.1 then (e.1, e.2 - ar.2) else e) }) st).program = st.program
      ∧ (sols.foldl (fun s ar =>
        { s with leaderboard := s.leaderboard.map (fun e =>
            if e.1 == ar.1 then (e.1, e.2 - ar.2) else e) }) st).mapping = st.mapping
      ∧ (sols.foldl (fun s ar =>
        { s with leaderboard := s.leaderboard.map (fun e =>
            if e.1 == ar.1 then (e.1, e.2 - ar.2) else e) }) st).program_function
          = st.program_function := by
  induction sols with
  | nil => exact fun st => ⟨rfl, rfl, rfl⟩
  | cons ar sols ih =>
    intro st
    rw [List.foldl_cons]
    exact ih _

/-- The leaderboard reversal touches only `leaderboard`. -/
theorem revert_leaderboard_skeleton (b : Block) (st : RelState) :
    (revert_leaderboard b st).1.program = st.program
    ∧ (revert_leaderboard b st).1.mapping = st.mapping
    ∧ (revert_leaderboard b st).1.program_function = st.program_function := by
  rw [revert_leaderboard]
  exact leaderboard_fold_skeleton b.solutions st

/-- The transaction loop never adds `program` or `mapping` rows. -/
theorem process_cts_subset :
    ∀ (cts : List ConfirmedTransaction) (st st2 : RelState) (w : Nat),
      process_cts cts st = (Except.ok st2, w) →
      (∀ p ∈ st2.program, p ∈ st.program) ∧ (∀ mr ∈ st2.mapping, mr ∈ st.mapping) := by
  intro cts
  induction cts with
  | nil =>
    intro st st2 w h
    rw [process_cts] at h
    injection h with h1 h2
    injection h1 with h3
    rw [← h3]
    exact ⟨fun p hp => hp, fun mr hmr => hmr⟩
  | cons ct cts ih =>
    intro st st2 w h
    obtain ⟨st1, w1, w2, hc, hr⟩ := process_cts_cons_ok ct cts st st2 w h
    obtain ⟨hp1, hm1⟩ := process_ct_subset ct st st1 w1 hc
    obtain ⟨hp2, hm2⟩ := ih st1 st2 w2 hr
    exact ⟨fun p hp => hp1 p (hp2 p hp), fun mr hmr => hm1 mr (hm2 mr hmr)⟩

/-- The block loop never adds `program` or `mapping` rows. -/
theorem process_blocks_subset :
    ∀ (bs : List Block) (st st2 : RelState) (w : Nat),
      process_blocks bs st = (Except.ok st2, w) →
      (∀ p ∈ st2.program, p ∈ st.program) ∧ (∀ mr ∈ st2.mapping, mr ∈ st.mapping) := by
  intro bs
  induction bs with
  | nil =>
    intro st st2 w h
    rw [process_blocks] at h
    injection h with h1 h2
    injection h1 with h3
    rw [← h3]
    exact ⟨fun p hp => hp, fun mr hmr => hmr⟩
  | cons b bs ih =>
    intro st st2 w h
    obtain ⟨st1, w1, w2, hc, hr⟩ := process_blocks_cons_ok b bs st st2 w h
    obtain ⟨stc, wc, hcts, hlb⟩ := process_block_ok b st st1 w1 hc
    obtain ⟨hpc, hmc⟩ := process_cts_subset b.transactions st stc wc hcts
    obtain ⟨hpl, hml, _⟩ := revert_leaderboard_skeleton b stc
    obtain ⟨hp2, hm2⟩ := ih st1 st2 w2 hr
    refine ⟨fun p hp => hpc p ?_, fun mr hmr => hmc mr ?_⟩
    · have := hp2 p hp
      rw [hlb, hpl] at this
      exact this
    · have := hm2 mr hmr
      rw [hlb, hml] at this
      exact this

/-- Processing a Deploy transaction removes every `program` and `mapping` row
of the deployed program id. -/
theorem process_ct_deploy_kills (ct : ConfirmedTransaction) (st st3 : RelState)
    (w : Nat) (i : String) (ft : Transition) (pid : String)
    (h : process_ct ct st = (Except.ok st3, w))
    (htx : ct.transaction = Transaction.deploy i ft pid) :
    (∀ p ∈ st3.program, p.program_id ≠ pid) ∧ (∀ mr ∈ st3.mapping, mr.program_id ≠ pid) := by
  obtain ⟨table, w1, ts, _, _, hst3⟩ := process_ct_ok ct st st3 w h
  subst hst3
  obtain ⟨hp, hm⟩ := decrement_fold_skeleton ts
    (deploy_deletes ct { st with transaction := table }).1
  rw [hp, hm, deploy_deletes, htx]
  constructor
  · intro p hp2
    have := (List.mem_filter.mp hp2).2
    simpa using this
  · intro mr hmr
    have := (List.mem_filter.mp hmr).2
    simpa using this

/-- If some transaction in the list is a Deploy of `pid`, after the loop no
`program` or `mapping` row of `pid` remains. -/
theorem process_cts_kills :
    ∀ (cts : List ConfirmedTransaction) (st st2 : RelState) (w : Nat)
      (ct : ConfirmedTransaction) (i : String) (ft : Transition) (pid : String),
      ct ∈ cts → ct.transaction = Transaction.deploy i ft pid →
      process_cts cts st = (Except.ok st2, w) →
      (∀ p ∈ st2.program, p.program_id ≠ pid)
      ∧ (∀ mr ∈ st2.mapping, mr.program_id ≠ pid) := by
  intro cts
  induction cts with
  | nil => intro st st2 w ct i ft pid hmem; simp at hmem
  | cons c cts ih =>
    intro st st2 w ct i ft pid hmem htx h
    obtain ⟨st1, w1, w2, hc, hr⟩ := process_cts_cons_ok c cts st st2 w h
    rcases List.mem_cons.mp hmem with heq | hmem2
    · subst heq
      obtain ⟨hkp, hkm⟩ := process_ct_deploy_kills ct st st1 w1 i ft pid hc htx
      obtain ⟨hsp, hsm⟩ := process_cts_subset cts st1 st2 w2 hr
      exact ⟨fun p hp => hkp p (hsp p hp), fun mr hmr => hkm mr (hsm mr hmr)⟩
    · exact ih st1 st2 w2 ct i ft pid hmem2 htx hr

/-- C7: for a Deploy transaction in a reverted block, the reversal transition
set is exactly the fee transition, and after the block walk no `program` row
and no `mapping` row of the deployed program id remains. -/
theorem deploy_revert_removes_program (blocks : List Block) (st st2 : RelState)
    (w : Nat) (b : Block) (ct : ConfirmedTransaction) (i : String) (ft : Transition)
    (pid : String) (hb : b ∈ blocks) (hct : ct ∈ b.transactions)
    (hdep : ct.transaction = Transaction.deploy i ft pid)
    (hrun : process_blocks blocks st = (Except.ok st2, w)) :
    transition_set ct = Except.ok [ft]
    ∧ (∀ p ∈ st2.program, p.program_id ≠ pid)
    ∧ (∀ mr ∈ st2.mapping, mr.program_id ≠ pid) := by
  refine ⟨by rw [transition_set, hdep], ?_⟩
  induction blocks generalizing st w with
  | nil => simp at hb
  | cons b2 bs ih =>
    obtain ⟨st1, w1, w2, hc, hr⟩ := process_blocks_cons_ok b2 bs st st2 w hrun
    rcases List.mem_cons.mp hb with heq | hmem2
    · subst heq
      obtain ⟨stc, wc, hcts, hlb⟩ := process_block_ok b st st1 w1 hc
      obtain ⟨hkp, hkm⟩ := process_cts_kills b.transactions st stc wc ct i ft pid
        hct hdep hcts
      obtain ⟨hpl, hml, _⟩ := revert_leaderboard_skeleton b stc
      obtain ⟨hsp, hsm⟩ := process_blocks_subset bs st1 st2 w2 hr
      refine ⟨fun p hp => hkp p ?_, fun mr hmr => hkm mr ?_⟩
      · have := hsp p hp
        rw [hlb, hpl] at this
        exact this
      · have := hsm mr hmr
        rw [hlb, hml] at this
        exact this
    · exact ih st1 w2 hmem2 hr

/-- C5 counterexample: the block contains exactly one reversal transition
referencing `(p.aleo, f)` (the Execute's), so the claim demands the counter
to drop from 5 to 4; but the Deploy of `p.aleo` earlier in the same walk has
already deleted the `program` row, the decrement's join finds no program row,
and the counter stays 5. -/
theorem counter_conservation_counterexample :
    transition_set c5_deploy_ct = Except.ok [⟨"credits.aleo", "fee_public"⟩]
  ∧ transition_set c5_execute_ct = Except.ok [⟨"p.aleo", "f"⟩]
  ∧ matching_count [c5_block] "p.aleo" "f" = 1
  ∧ (process_blocks [c5_block] c5_state).1
      = Except.ok ⟨[], [], [], [⟨1, "f", 5⟩], [], [], [], [], []⟩
  ∧ ¬ ((5 : Int) = 5 - 1) :=
  ⟨rfl, rfl, rfl, rfl, by decide⟩

/-- Effect of one decrement statement on the tracked `program_function` row:
with the program row `(i, pid)` present, unique internal ids, and the row
`pf` at position `j` joined to `(i, n)`, the statement decrements exactly
when the transition references `(pid, n)`. -/
theorem decrement_called_pf (t : Transition) (s : RelState) (i : Nat)
    (pid n : String) (j : Nat) (pfc : PfRow)
    (hrow : (⟨i, pid⟩ : ProgramRow) ∈ s.program)
    (hids : (s.program.map (fun p => p.id)).Nodup)
    (hpf : s.program_function[j]? = some pfc)
    (hpfi : pfc.program_id = i) (hpfn : pfc.name = n) :
    (decrement_called t s).program_function[j]?
      = some (if t.program_id = pid ∧ t.function_name = n
          then { pfc with called := pfc.called - 1 } else pfc) := by
  rw [decrement_called]
  dsimp only
  rw [List.getElem?_map, hpf, Option.map_some']
  congr 1
  by_cases hc : t.program_id = pid ∧ t.function_name = n
  · rw [if_pos hc]
    have hany : s.program.any
        (fun p => p.program_id == t.program_id && p.id == pfc.program_id) = true := by
      rw [List.any_eq_true]
      refine ⟨⟨i, pid⟩, hrow, ?_⟩
      simp [hc.1, hpfi]
    rw [hany]
    simp [hpfn, hc.2]
  · rw [if_neg hc]
    by_cases hn : t.function_name = n
    · have hpid : ¬ t.program_id = pid := fun hp => hc ⟨hp, hn⟩
      have hany : s.program.any
          (fun p => p.program_id == t.program_id && p.id == pfc.program_id) = false := by
        by_contra hcon
        rw [Bool.not_eq_false, List.any_eq_true] at hcon
        obtain ⟨p, hpmem, hcond⟩ := hcon
        rw [Bool.and_eq_true, beq_iff_eq, beq_iff_eq] at hcond
        have hpe : p = ⟨i, pid⟩ :=
          List.inj_on_of_nodup_map hids hpmem hrow (by rw [hcond.2, hpfi])
        rw [hpe] at hcond
        exact hpid (by rw [← hcond.1])
      rw [hany]
      simp
    · have hnm : (pfc.name == t.function_name) = false := by
        rw [beq_eq_false_iff_ne, hpfn]
        exact fun h => hn h.symm
      simp [hnm]

/-- Effect of the decrement fold on the tracked row: the counter drops by the
number of matching transitions. -/
theorem decrement_fold_pf (i : Nat) (pid n : String) (j : Nat) :
    ∀ (ts : List Transition) (s : RelState) (pfc : PfRow),
      (⟨i, pid⟩ : ProgramRow) ∈ s.program →
      (s.program.map (fun p => p.id)).Nodup →
      s.program_function[j]? = some pfc →
      pfc.program_id = i → pfc.name = n →
      (ts.foldl (fun s t => decrement_called t s) s).program_function[j]?
        = some { pfc with called := pfc.called
            - (ts.countP (fun t => t.program_id == pid && t.function_name == n) : Int) } := by
  intro ts
  induction ts with
  | nil =>
    intro s pfc _ _ hpf _ _
    rw [List.foldl_nil, hpf, List.countP_nil]
    simp
  | cons t ts ih =>
    intro s pfc hrow hids hpf hpfi hpfn
    rw [List.foldl_cons]
    have hstep := decrement_called_pf t s i pid n j pfc hrow hids hpf hpfi hpfn
    have hprog : (decrement_called t s).program = s.program := rfl
    by_cases hc : t.program_id = pid ∧ t.function_name = n
    · rw [if_pos hc] at hstep
      have hres := ih (decrement_called t s) { pfc with called := pfc.called - 1 }
        (hprog ▸ hrow) (hprog ▸ hids) hstep hpfi hpfn
      rw [hres]
      have hcnt : (t :: ts).countP (fun t => t.program_id == pid && t.function_name == n)
          = ts.countP (fun t => t.program_id == pid && t.function_name == n) + 1 := by
        rw [List.countP_cons]
        simp [hc.1, hc.2]
      rw [hcnt]
      congr 1
      push_cast
      ring_nf
    · rw [if_neg hc] at hstep
      have hres := ih (decrement_called t s) pfc (hprog ▸ hrow) (hprog ▸ hids) hstep hpfi hpfn
      rw [hres]
      have hcnt : (t :: ts).countP (fun t => t.program_id == pid && t.function_name == n)
          = ts.countP (fun t => t.program_id == pid && t.function_name == n) := by
        rw [List.countP_cons]
        have : (t.program_id == pid && t.function_name == n) = false := by
          rw [Bool.and_eq_false_iff]
          rcases Decidable.em (t.program_id = pid) with h1 | h1
          · exact Or.inr (beq_eq_false_iff_ne.mpr (fun h2 => hc ⟨h1, h2⟩))
          · exact Or.inl (beq_eq_false_iff_ne.mpr h1)
        simp [this]
      rw [hcnt]

/-- The deploy deletes keep the tracked program row and id uniqueness when
the transaction does not deploy the tracked program. -/
theorem deploy_deletes_pid (ct : ConfirmedTransaction) (st : RelState)
    (pid : String) (i : Nat) (hnod : ¬ deploys_program ct pid)
    (hrow : (⟨i, pid⟩ : ProgramRow) ∈ st.program)
    (hids : (st.program.map (fun p => p.id)).Nodup) :
    ((⟨i, pid⟩ : ProgramRow) ∈ (deploy_deletes ct st).1.program)
    ∧ ((deploy_deletes ct st).1.program.map (fun p => p.id)).Nodup := by
  rw [deploy_deletes]
  rw [deploys_program] at hnod
  cases htx : ct.transaction with
  | deploy i2 ft2 pid2 =>
    rw [htx] at hnod
    constructor
    · refine List.mem_filter.mpr ⟨hrow, ?_⟩
      have hne : (pid == pid2) = false :=
        beq_eq_false_iff_ne.mpr (fun h => hnod h.symm)
      simp [hne]
    · exact List.Nodup.sublist (List.Sublist.map _ (List.filter_sublist _)) hids
  | execute i2 ts2 af2 => exact ⟨hrow, hids⟩
  | fee i2 ft2 => exact ⟨hrow, hids⟩

/-- Effect of one transaction's processing on the tracked counter row. -/
theorem process_ct_pf (ct : ConfirmedTransaction) (st st3 : RelState) (w : Nat)
    (i : Nat) (pid n : String) (j : Nat) (pfc : PfRow)
    (h : process_ct ct st = (Except.ok st3, w))
    (hnod : ¬ deploys_program ct pid)
    (hrow : (⟨i, pid⟩ : ProgramRow) ∈ st.program)
    (hids : (st.program.map (fun p => p.id)).Nodup)
    (hpf : st.program_function[j]? = some pfc)
    (hpfi : pfc.program_id = i) (hpfn : pfc.name = n) :
    st3.program_function[j]?
      = some { pfc with called := pfc.called
          - ((ct_transitions ct).countP
              (fun t => t.program_id == pid && t.function_name == n) : Int) }
    ∧ ((⟨i, pid⟩ : ProgramRow) ∈ st3.program)
    ∧ (st3.program.map (fun p => p.id)).Nodup := by
  obtain ⟨table, w1, ts, hrc, hts, hst3⟩ := process_ct_ok ct st st3 w h
  subst hst3
  have hct : ct_transitions ct = ts := by rw [ct_transitions, hts]
  have hsk := deploy_deletes_skeleton ct { st with transaction := table }
  have hdd := deploy_deletes_pid ct { st with transaction := table } pid i hnod hrow hids
  have hpf1 : (deploy_deletes ct { st with transaction := table }).1.program_function[j]?
      = some pfc := by
    rw [hsk.2.2.1]
    exact hpf
  have hfold := decrement_fold_pf i pid n j ts
    (deploy_deletes ct { st with transaction := table }).1 pfc hdd.1 hdd.2 hpf1 hpfi hpfn
  rw [hct]
  refine ⟨hfold, ?_, ?_⟩
  · rw [(decrement_fold_skeleton ts _).1]
    exact hdd.1
  · rw [(decrement_fold_skeleton ts _).1]
    exact hdd.2

/-- Effect of a block's transaction loop on the tracked counter row. -/
theorem process_cts_pf (i : Nat) (pid n : String) (j : Nat) :
    ∀ (cts : List ConfirmedTransaction) (st st2 : RelState) (w : Nat) (pfc : PfRow),
      process_cts cts st = (Except.ok st2, w) →
      (∀ ct ∈ cts, ¬ deploys_program ct pid) →
      (⟨i, pid⟩ : ProgramRow) ∈ st.program →
      (st.program.map (fun p => p.id)).Nodup →
      st.program_function[j]? = some pfc →
      pfc.program_id = i → pfc.name = n →
      st2.program_function[j]?
        = some { pfc with called := pfc.called
            - (((cts.map ct_transitions).flatten).countP
                (fun t => t.program_id == pid && t.function_name == n) : Int) }
      ∧ ((⟨i, pid⟩ : ProgramRow) ∈ st2.program)
      ∧ (st2.program.map (fun p => p.id)).Nodup := by
  intro cts
  induction cts with
  | nil =>
    intro st st2 w pfc h _ hrow hids hpf hpfi hpfn
    rw [process_cts] at h
    injection h with h1 h2
    injection h1 with h3
    subst h3
    rw [hpf]
    refine ⟨?_, hrow, hids⟩
    simp
  | cons ct cts ih =>
    intro st st2 w pfc h hnod hrow hids hpf hpfi hpfn
    obtain ⟨st1, w1, w2, hc, hr⟩ := process_cts_cons_ok ct cts st st2 w h
    obtain ⟨hpf1, hrow1, hids1⟩ := process_ct_pf ct st st1 w1 i pid n j pfc hc
      (hnod ct (List.mem_cons_self ct cts)) hrow hids hpf hpfi hpfn
    obtain ⟨hpf2, hrow2, hids2⟩ := ih st1 st2 w2 _ hr
      (fun c hc2 => hnod c (List.mem_cons_of_mem ct hc2)) hrow1 hids1 hpf1 hpfi hpfn
    refine ⟨?_, hrow2, hids2⟩
    rw [hpf2]
    congr 1
    rw [List.map_cons, List.flatten_cons, List.countP_append]
    push_cast
    ring_nf

/-- Effect of one block's processing on the tracked counter row. -/
theorem process_block_pf (i : Nat) (pid n : String) (j : Nat) (b : Block)
    (st st2 : RelState) (w : Nat) (pfc : PfRow)
    (h : process_block b st = (Except.ok st2, w))
    (hnod : ∀ ct ∈ b.transactions, ¬ deploys_program ct pid)
    (hrow : (⟨i, pid⟩ : ProgramRow) ∈ st.program)
    (hids : (st.program.map (fun p => p.id)).Nodup)
    (hpf : st.program_function[j]? = some pfc)
    (hpfi : pfc.program_id = i) (hpfn : pfc.name = n) :
    st2.program_function[j]?
      = some { pfc with called := pfc.called
          - ((block_transitions b).countP
              (fun t => t.program_id == pid && t.function_name == n) : Int) }
    ∧ ((⟨i, pid⟩ : ProgramRow) ∈ st2.program)
    ∧ (st2.program.map (fun p => p.id)).Nodup := by
  obtain ⟨st1, w1, hcts, hlb⟩ := process_block_ok b st st2 w h
  obtain ⟨hpf1, hrow1, hids1⟩ := process_cts_pf i pid n j b.transactions st st1 w1 pfc
    hcts hnod hrow hids hpf hpfi hpfn
  obtain ⟨hpl, _, hpfl⟩ := revert_leaderboard_skeleton b st1
  subst hlb
  rw [block_transitions]
  refine ⟨?_, ?_, ?_⟩
  · rw [hpfl]
    exact hpf1
  · rw [hpl]
    exact hrow1
  · rw [hpl]
    exact hids1

/-- C5 (amended): for every program function whose program row exists with a
unique internal id and whose program is not deployed in any reverted block,
the post-walk called counter equals the pre-walk counter minus the number of
reversal transitions referencing that (program id, function name); each such
transition decrements the counter by exactly one.  Transitions whose program
row has already been deleted by a reverted deployment decrement nothing. -/
theorem counter_decrement_conservation (i : Nat) (pid n : String) (j : Nat) :
    ∀ (blocks : List Block) (st st2 : RelState) (w : Nat) (pfc : PfRow),
      process_blocks blocks st = (Except.ok st2, w) →
      (∀ b ∈ blocks, ∀ ct ∈ b.transactions, ¬ deploys_program ct pid) →
      (⟨i, pid⟩ : ProgramRow) ∈ st.program →
      (st.program.map (fun p => p.id)).Nodup →
      st.program_function[j]? = some pfc →
      pfc.program_id = i → pfc.name = n →
      st2.program_function[j]?
        = some { pfc with called := pfc.called - (matching_count blocks pid n : Int) } := by
  intro blocks
  induction blocks with
  | nil =>
    intro st st2 w pfc h _ _ _ hpf hpfi hpfn
    rw [process_blocks] at h
    injection h with h1 h2
    injection h1 with h3
    subst h3
    rw [hpf, matching_count]
    simp
  | cons b bs ih =>
    intro st st2 w pfc h hnod hrow hids hpf hpfi hpfn
    obtain ⟨st1, w1, w2, hc, hr⟩ := process_blocks_cons_ok b bs st st2 w h
    obtain ⟨hpf1, hrow1, hids1⟩ := process_block_pf i pid n j b st st1 w1 pfc hc
      (hnod b (List.mem_cons_self b bs)) hrow hids hpf hpfi hpfn
    have hres := ih st1 st2 w2 _ hr (fun b2 hb2 => hnod b2 (List.mem_cons_of_mem b hb2))
      hrow1 hids1 hpf1 hpfi hpfn
    rw [hres]
    congr 1
    rw [matching_count, matching_count, List.map_cons, List.flatten_cons,
      List.countP_append]
    push_cast
    ring_nf

/-- Witness for the amended counter-conservation theorem: reverting one
Execute of `q.aleo/g` drops its counter from 5 by the matching-transition
count (one). -/
theorem counter_decrement_conservation_witness :
    (⟨[], [⟨1, "q.aleo"⟩], [], [⟨1, "g", 4⟩], [], [], [], [], []⟩ : RelState).program_function[0]?
      = some { program_id := 1, name := "g",
               called := (5 : Int) - (matching_count [c5w_block] "q.aleo" "g" : Int) } := by
  have hnod : ∀ b ∈ [c5w_block], ∀ ct ∈ b.transactions, ¬ deploys_program ct "q.aleo" := by
    intro b hb ct hct hd
    rw [List.mem_singleton] at hb
    subst hb
    rcases List.mem_singleton.mp hct with h
    subst h
    exact hd
  exact counter_decrement_conservation 1 "q.aleo" "g" 0 [c5w_block] c5w_state
    ⟨[], [⟨1, "q.aleo"⟩], [], [⟨1, "g", 4⟩], [], [], [], [], []⟩ 2 ⟨1, "g", 5⟩
    (by rfl) hnod (by decide) (by decide) rfl rfl rfl

/-- Witness for the deploy-revert theorem: after reverting past the
deployment, no `program` row and no `mapping` row of `p.aleo` remains. -/
theorem deploy_revert_removes_program_witness :
    transition_set c7_ct = Except.ok [⟨"credits.aleo", "fee_public"⟩]
  ∧ (∀ p ∈ (⟨[], [], [], [], [], [], [], [], []⟩ : RelState).program,
      p.program_id ≠ "p.aleo")
  ∧ (∀ mr ∈ (⟨[], [], [], [], [], [], [], [], []⟩ : RelState).mapping,
      mr.program_id ≠ "p.aleo") :=
  deploy_revert_removes_program [c7_block] c7_state
    ⟨[], [], [], [], [], [], [], [], []⟩ 4 c7_block c7_ct
    "t1" ⟨"credits.aleo", "fee_public"⟩ "p.aleo"
    (List.mem_singleton.mpr rfl) (List.mem_singleton.mpr rfl) rfl (by rfl)

/-! ## Cache-restore key lemmas -/
/-- A key is present exactly when some pair of the store carries it. -/
theorem hasKey_iff (r : Redis) (k : String) :
    r.hasKey k = true ↔ ∃ v, (k, v) ∈ r.data := by
  rw [Redis.hasKey, List.any_eq_true]
  constructor
  · rintro ⟨⟨a, b⟩, hab, heq⟩
    rw [beq_iff_eq] at heq
    dsimp only at heq
    subst heq
    exact ⟨b, hab⟩
  · rintro ⟨v, hv⟩
    exact ⟨(k, v), hv, by simp⟩

/-- Membership after the rollback-backup deletion fold. -/
theorem mem_del_fold :
    ∀ (ks : List String) (r : Redis) (k v : String),
      ((k, v) ∈ (ks.foldl (fun rr k2 => rr.del k2) r).data)
        ↔ ((k, v) ∈ r.data ∧ ∀ k2 ∈ ks, ¬(k = k2)) := by
  intro ks
  induction ks with
  | nil => intro r k v; simp
  | cons k2 ks ih =>
    intro r k v
    rw [List.foldl_cons, ih]
    rw [show (r.del k2).data = r.data.filter (fun kv => !(kv.1 == k2)) from rfl]
    rw [List.mem_filter]
    constructor
    · rintro ⟨⟨hmem, hne⟩, hall⟩
      refine ⟨hmem, ?_⟩
      intro k3 hk3
      rcases List.mem_cons.mp hk3 with h | h
      · subst h
        intro hkk
        subst hkk
        simp at hne
      · exact hall k3 h
    · rintro ⟨hmem, hall⟩
      refine ⟨⟨hmem, ?_⟩, fun k3 hk3 => hall k3 (List.mem_cons_of_mem k2 hk3)⟩
      have := hall k2 (List.mem_cons_self k2 ks)
      simpa using this

/-- Membership in a scan result. -/
theorem mem_scan_keys (r : Redis) (pre k : String) :
    k ∈ r.scan_keys pre ↔ (∃ v, (k, v) ∈ r.data) ∧ str_starts pre k = true := by
  rw [Redis.scan_keys, List.mem_filter, List.mem_map]
  constructor
  · rintro ⟨⟨⟨a, b⟩, hab, heq⟩, hpre⟩
    dsimp only at heq
    subst heq
    exact ⟨⟨b, hab⟩, hpre⟩
  · rintro ⟨⟨v, hv⟩, hpre⟩
    exact ⟨⟨(k, v), hv, rfl⟩, hpre⟩

/-- An empty scan result means no stored key matches the pattern. -/
theorem scan_keys_eq_nil (r : Redis) (pre : String) :
    r.scan_keys pre = [] ↔ ∀ k v, (k, v) ∈ r.data → str_starts pre k = false := by
  constructor
  · intro h k v hkv
    by_contra hc
    rw [Bool.not_eq_false] at hc
    have : k ∈ r.scan_keys pre := (mem_scan_keys r pre k).mpr ⟨⟨v, hkv⟩, hc⟩
    rw [h] at this
    simp at this
  · intro h
    rw [List.eq_nil_iff_forall_not_mem]
    intro k hk
    obtain ⟨⟨v, hv⟩, hpre⟩ := (mem_scan_keys r pre k).mp hk
    rw [h k v hv] at hpre
    exact Bool.false_ne_true hpre

/-- Two mutually non-prefix strings cannot both be prefixes of the same key. -/
theorem str_starts_incompat (a b k : String)
    (hab : a.toList.isPrefixOf b.toList = false)
    (hba : b.toList.isPrefixOf a.toList = false)
    (hk : str_starts a k = true) : str_starts b k = false := by
  by_contra h
  rw [Bool.not_eq_false] at h
  rw [str_starts, List.isPrefixOf_iff_prefix] at hk h
  rcases List.prefix_or_prefix_of_prefix hk h with hp | hp
  · rw [← List.isPrefixOf_iff_prefix, hab] at hp
    exact Bool.false_ne_true hp
  · rw [← List.isPrefixOf_iff_prefix, hba] at hp
    exact Bool.false_ne_true hp

/-- No tracked family name matches another family's rollback-backup pattern. -/
theorem fam_not_rollback :
    ∀ f ∈ redis_keys, ∀ g ∈ redis_keys,
      str_starts (f ++ ":rollback_backup:") g = false := by decide

/-- History prefixes and rollback-backup prefixes of the tracked families are
mutually non-prefix. -/
theorem hist_rollback_incompat :
    ∀ f ∈ redis_keys, ∀ g ∈ redis_keys,
      ((f ++ ":history:").toList.isPrefixOf ((g ++ ":rollback_backup:").toList)) = false
      ∧ (((g ++ ":rollback_backup:").toList).isPrefixOf ((f ++ ":history:").toList)) = false := by
  decide

/-- Writing one key preserves every present key. -/
theorem setKey_hasKey_preserve (r : Redis) (k2 v k : String)
    (hk : r.hasKey k = true) : (r.setKey k2 v).hasKey k = true := by
  rw [hasKey_iff] at hk ⊢
  obtain ⟨v0, hv0⟩ := hk
  by_cases he : k = k2
  · subst he
    refine ⟨v, ?_⟩
    rw [Redis.setKey]
    exact List.mem_append_right _ (by simp)
  · refine ⟨v0, ?_⟩
    rw [Redis.setKey]
    refine List.mem_append_left _ ?_
    rw [List.mem_filter]
    refine ⟨hv0, ?_⟩
    simp [he]

/-- Copying preserves every present key. -/
theorem copy_hasKey_preserve (r : Redis) (src dst k : String)
    (hk : r.hasKey k = true) : (r.copy src dst).hasKey k = true := by
  rw [Redis.copy]
  cases hl : r.lookup src with
  | none => exact hk
  | some v => exact setKey_hasKey_preserve r dst v k hk

/-- The restore of one family only removes keys or writes the family's own
live key. -/
theorem cache_restore_family_data_subset (r : Redis) (g : String) (hgt : Nat) :
    ∀ kv ∈ (cache_restore_family r g hgt).1.data, kv ∈ r.data ∨ kv.1 = g := by
  intro kv hkv
  obtain ⟨a, b⟩ := kv
  rw [cache_restore_family] at hkv
  dsimp only at hkv
  have h1 := (mem_del_fold _ _ a b).mp hkv
  have h2 := h1.1
  rw [show ((r.copy (g ++ ":history:" ++ toString hgt) g).persist g).data
        = (r.copy (g ++ ":history:" ++ toString hgt) g).data from rfl] at h2
  rw [Redis.copy] at h2
  cases hl : r.lookup (g ++ ":history:" ++ toString hgt) with
  | none =>
    rw [hl] at h2
    exact Or.inl h2
  | some v =>
    rw [hl] at h2
    rw [show (r.setKey g v).data
          = (r.data.filter (fun kv => !(kv.1 == g))) ++ [(g, v)] from rfl] at h2
    rcases List.mem_append.mp h2 with h3 | h3
    · exact Or.inl (List.mem_filter.mp h3).1
    · rcases List.mem_singleton.mp h3 with h4
      rw [Prod.mk.injEq] at h4
      exact Or.inr h4.1

/-- Deleting every key of a scan removes every key matching the pattern. -/
theorem del_fold_scan_nil (r1 : Redis) (pre : String) :
    ((r1.scan_keys pre).foldl (fun rr k2 => rr.del k2) r1).scan_keys pre = [] := by
  rw [scan_keys_eq_nil]
  intro k v hkv
  have h1 := (mem_del_fold _ _ k v).mp hkv
  by_contra hc
  rw [Bool.not_eq_false] at hc
  exact h1.2 k ((mem_scan_keys r1 pre k).mpr ⟨⟨v, h1.1⟩, hc⟩) rfl

/-- Deleting the keys of a scan preserves keys not matching the pattern. -/
theorem del_fold_scan_preserve (r1 : Redis) (pre k : String)
    (hnb : str_starts pre k = false) (hk : r1.hasKey k = true) :
    ((r1.scan_keys pre).foldl (fun rr k2 => rr.del k2) r1).hasKey k = true := by
  rw [hasKey_iff] at hk ⊢
  obtain ⟨v, hv⟩ := hk
  refine ⟨v, (mem_del_fold _ _ k v).mpr ⟨hv, ?_⟩⟩
  intro k2 hk2 he
  subst he
  have h2 := ((mem_scan_keys r1 pre k).mp hk2).2
  rw [hnb] at h2
  exact Bool.false_ne_true h2

/-- One family's restore removes every key of the family's rollback-backup
pattern. -/
theorem cache_restore_family_cleans (r : Redis) (f : String) (hgt : Nat) :
    (cache_restore_family r f hgt).1.scan_keys (f ++ ":rollback_backup:") = [] := by
  rw [cache_restore_family]
  dsimp only
  exact del_fold_scan_nil _ _

/-- One family's restore preserves keys not matching the family's
rollback-backup pattern. -/
theorem cache_restore_family_preserves (r : Redis) (g : String) (hgt : Nat) (k : String)
    (hnb : str_starts (g ++ ":rollback_backup:") k = false)
    (hk : r.hasKey k = true) :
    (cache_restore_family r g hgt).1.hasKey k = true := by
  rw [cache_restore_family]
  dsimp only
  exact del_fold_scan_preserve _ _ k hnb
    (copy_hasKey_preserve r (g ++ ":history:" ++ toString hgt) g k hk)

/-- A later family's restore cannot re-create rollback-backup keys of another
tracked family. -/
theorem cache_restore_family_no_new (r : Redis) (g : String) (hgt : Nat) (f : String)
    (hf : f ∈ redis_keys) (hg : g ∈ redis_keys)
    (hempty : r.scan_keys (f ++ ":rollback_backup:") = []) :
    (cache_restore_family r g hgt).1.scan_keys (f ++ ":rollback_backup:") = [] := by
  rw [scan_keys_eq_nil]
  intro k v hkv
  have hsub := cache_restore_family_data_subset r g hgt (k, v) hkv
  by_contra hc
  rw [Bool.not_eq_false] at hc
  rcases hsub with h | h
  · have h2 := (scan_keys_eq_nil r _).mp hempty k v h
    rw [h2] at hc
    exact Bool.false_ne_true hc
  · dsimp only at h
    rw [h] at hc
    rw [fam_not_rollback f hf g hg] at hc
    exact Bool.false_ne_true hc

/-- The cache-restore fold on the Redis component alone. -/
theorem cache_restore_fst (hgt : Nat) :
    ∀ (fams : List String) (acc : Redis × List Event),
      (fams.foldl (fun acc family =>
          let step := cache_restore_family acc.1 family hgt
          (step.1, acc.2 ++ step.2)) acc).1
        = fams.foldl (fun rr family => (cache_restore_family rr family hgt).1) acc.1 := by
  intro fams
  induction fams with
  | nil => intro acc; rfl
  | cons g fams ih =>
    intro acc
    rw [List.foldl_cons, List.foldl_cons]
    exact ih _

/-- Once a family's rollback backups are gone, the remaining family restores
keep them gone. -/
theorem fold_preserves_empty (hgt : Nat) (f : String) (hf : f ∈ redis_keys) :
    ∀ (fams : List String) (r : Redis),
      (∀ g ∈ fams, g ∈ redis_keys) →
      r.scan_keys (f ++ ":rollback_backup:") = [] →
      (fams.foldl (fun rr family => (cache_restore_family rr family hgt).1) r).scan_keys
          (f ++ ":rollback_backup:") = [] := by
  intro fams
  induction fams with
  | nil => exact fun r _ h => h
  | cons g fams ih =>
    intro r hmem hempty
    rw [List.foldl_cons]
    exact ih _ (fun g2 hg2 => hmem g2 (List.mem_cons_of_mem g hg2))
      (cache_restore_family_no_new r g hgt f hf (hmem g (List.mem_cons_self g fams)) hempty)

/-- After the family fold has processed a family, its rollback backups are
gone. -/
theorem fold_cleans (hgt : Nat) (f : String) (hf : f ∈ redis_keys) :
    ∀ (fams : List String) (r : Redis),
      (∀ g ∈ fams, g ∈ redis_keys) → f ∈ fams →
      (fams.foldl (fun rr family => (cache_restore_family rr family hgt).1) r).scan_keys
          (f ++ ":rollback_backup:") = [] := by
  intro fams
  induction fams with
  | nil => intro r _ h; simp at h
  | cons g fams ih =>
    intro r hmem hfm
    rw [List.foldl_cons]
    rcases List.mem_cons.mp hfm with h | h
    · subst h
      exact fold_preserves_empty hgt f hf fams _
        (fun g2 hg2 => hmem g2 (List.mem_cons_of_mem f hg2))
        (cache_restore_family_cleans r f hgt)
    · exact ih _ (fun g2 hg2 => hmem g2 (List.mem_cons_of_mem g hg2)) h

/-- The family fold preserves every history snapshot key of a tracked
family. -/
theorem fold_preserves_hist (hgt : Nat) (f : String) (hf : f ∈ redis_keys)
    (k : String) (hk : str_starts (f ++ ":history:") k = true) :
    ∀ (fams : List String) (r : Redis),
      (∀ g ∈ fams, g ∈ redis_keys) → r.hasKey k = true →
      (fams.foldl (fun rr family => (cache_restore_family rr family hgt).1) r).hasKey k
        = true := by
  intro fams
  induction fams with
  | nil => exact fun r _ h => h
  | cons g fams ih =>
    intro r hmem hkk
    rw [List.foldl_cons]
    have hg := hmem g (List.mem_cons_self g fams)
    have hinc := hist_rollback_incompat f hf g hg
    have hnb : str_starts (g ++ ":rollback_backup:") k = false :=
      str_starts_incompat (f ++ ":history:") (g ++ ":rollback_backup:") k hinc.1 hinc.2 hk
    exact ih _ (fun g2 hg2 => hmem g2 (List.mem_cons_of_mem g hg2))
      (cache_restore_family_preserves r g hgt k hnb hkk)

/-- C9: after a successful cache restore, no rollback-backup key of any
tracked family remains, while every height-indexed snapshot key is left in
place. -/
theorem cache_restore_cleans_backups (r : Redis) (hgt : Nat) (fam : String)
    (hf : fam ∈ redis_keys) :
    (cache_restore r hgt).1.scan_keys (fam ++ ":rollback_backup:") = []
  ∧ ∀ k, str_starts (fam ++ ":history:") k = true →
      r.hasKey k = true → (cache_restore r hgt).1.hasKey k = true := by
  rw [cache_restore, cache_restore_fst]
  constructor
  · exact fold_cleans hgt fam hf redis_keys r (fun g hg => hg) hf
  · intro k hk hkk
    exact fold_preserves_hist hgt fam hf k hk redis_keys r (fun g hg => hg) hkk

/-- Witness for the cleanup theorem at a concrete store. -/
theorem cache_restore_cleans_backups_witness :
    (cache_restore c9_redis 0).1.scan_keys ("credits.aleo:bonded" ++ ":rollback_backup:") = []
  ∧ (cache_restore c9_redis 0).1.hasKey "credits.aleo:bonded:history:0" = true := by
  have h := cache_restore_cleans_backups c9_redis 0 "credits.aleo:bonded" (by decide)
  exact ⟨h.1, h.2 "credits.aleo:bonded:history:0" (by decide) (by decide)⟩
